import Mathlib

/-!
Verification of the Inline Markdown Fidelity Engine of the Mink editor
(renderer source: the Typora-style inline syntax editing section, the
source-mode position mapper, and the search/replace index).

The document model is a single-paragraph ProseMirror document: a list of
characters, each carrying the two inline style marks (bold, italic).
ProseMirror positions are used throughout: position `p` addresses the gap
before the character of index `p - 1`; the first text position is 1 and
`doc.content.size = length + 2` for a one-paragraph document.  Both marks
are declared `inclusive: false` in the source (TyporaBold / TyporaItalic),
which fixes the mark-inheritance rule for inserted text: a mark is
inherited at a position only when both adjacent characters carry it.
-/

/-- A document character with its inline style marks. -/
structure MChar where
  ch : Char
  bold : Bool
  italic : Bool
deriving DecidableEq, Repr

/-- A single-paragraph document: its text characters with marks. -/
abbrev Doc := List MChar

/-- The two eligible style kinds (`bold` / `italic` mark names). -/
inductive Kind where
  | bold
  | italic
deriving DecidableEq, Repr

/-- Build a document of unmarked plain text. -/
def plainDoc (s : List Char) : Doc := s.map (fun c => ⟨c, false, false⟩)

/-- The text content of a document. -/
def docText (d : Doc) : List Char := d.map (·.ch)

/-- `doc.content.size` of the one-paragraph document. -/
def contentSize (d : Doc) : Nat := d.length + 2

/-- `doc.textBetween(a, b)`: the text characters strictly between
positions `a` and `b` (block tokens contribute nothing). -/
def textBetween (d : Doc) (a b : Nat) : List Char :=
  ((d.drop (max a 1 - 1)).take (b - max a 1)).map (·.ch)

/-- The single character at `[p, p+1)`, when it exists. -/
def charAtPos (d : Doc) (p : Nat) : Option Char :=
  if p = 0 then none else (d.get? (p - 1)).map (·.ch)

/-- Does this character carry the given mark? -/
def MChar.hasKind (c : MChar) : Kind → Bool
  | .bold => c.bold
  | .italic => c.italic

/-- Set or clear one mark on a character. -/
def MChar.setKind (c : MChar) (k : Kind) (v : Bool) : MChar :=
  match k with
  | .bold => { c with bold := v }
  | .italic => { c with italic := v }

/-- Apply `f` to the characters occupying positions `[a, b)`. -/
def mapRange (d : Doc) (a b : Nat) (f : MChar → MChar) : Doc :=
  d.take (a - 1) ++ ((d.drop (a - 1)).take (b - a)).map f ++ (d.drop (a - 1)).drop (b - a)

/-- `tr.addMark(a, b, k)`. -/
def addMark (d : Doc) (a b : Nat) (k : Kind) : Doc :=
  mapRange d a b (fun c => c.setKind k true)

/-- `tr.removeMark(a, b, k)`. -/
def removeMark (d : Doc) (a b : Nat) (k : Kind) : Doc :=
  mapRange d a b (fun c => c.setKind k false)

/-- `tr.delete(a, b)`. -/
def deleteRange (d : Doc) (a b : Nat) : Doc :=
  d.take (a - 1) ++ (d.drop (a - 1)).drop (b - a)

/-- The character before position `p` (`$pos.nodeBefore`, char-level). -/
def prevCharM (d : Doc) (p : Nat) : Option MChar :=
  if 2 ≤ p then d.get? (p - 2) else none

/-- The character after position `p` (`$pos.nodeAfter`, char-level). -/
def nextCharM (d : Doc) (p : Nat) : Option MChar :=
  if 1 ≤ p then d.get? (p - 1) else none

/-- `$pos.marks()` for the schema at hand: both marks are
`inclusive: false`, so a mark applies at a position exactly when both the
character before and the character after carry it. -/
def marksAtPos (d : Doc) (p : Nat) : Bool × Bool :=
  match prevCharM d p, nextCharM d p with
  | some c1, some c2 => (c1.bold && c2.bold, c1.italic && c2.italic)
  | _, _ => (false, false)

/-- `tr.insertText(s, p)` with no stored marks: the inserted text carries
the marks resolved at the insertion position. -/
def insertTextAt (d : Doc) (p : Nat) (s : List Char) : Doc :=
  let m := marksAtPos d p
  d.take (p - 1) ++ s.map (fun c => ⟨c, m.1, m.2⟩) ++ d.drop (p - 1)

/-- The other emphasis kind. -/
def Kind.other : Kind → Kind
  | .bold => .italic
  | .italic => .bold

/-- `getRevealSyntax`: the canonical marker text for a kind. -/
def getRevealSyntax : Kind → List Char
  | .bold => ['*', '*']
  | .italic => ['*']

/-- The active reveal record `_activeInlineReveal`.  The recorded shape
fields are optional because the idempotency branch of
`expandInlineReveal` creates the record without them.  The source field
`syntax` is named `syn` here (reserved word), and `end` is `endPos`. -/
structure RevealState where
  markName : Kind
  syn : List Char
  start : Nat
  endPos : Nat
  semantic : Option Kind
  leftLen : Option Nat
  rightLen : Option Nat
deriving DecidableEq, Repr

/-- `replicate n c` is a prefix of `s`, `s` ends with `replicate m c`,
and `s` has at least `minLen` characters: the shape tests
`startsWith`/`endsWith`/`length >=` used by the delimiter code. -/
def startsEnds (s : List Char) (l r : Nat) (c : Char) (minLen : Nat) : Bool :=
  (List.replicate l c).isPrefixOf s && (List.replicate r c).isSuffixOf s
    && decide (minLen ≤ s.length)

/-- The regex `^X(.+)X$` with `X` a run of `n` copies of `c` matches `s`
iff `s` is long enough that the two delimiter runs do not overlap and one
inner character remains. -/
def matchWrapped (s : List Char) (n : Nat) (c : Char) : Bool :=
  startsEnds s n n c (2 * n + 1)

/-- The capture group of the wrapping match: drop `l` from the front and
`r` from the back (JS `slice(l, -r)` / the regex group). -/
def innerSlice (s : List Char) (l r : Nat) : List Char :=
  (s.drop l).take (s.length - l - r)

/-- The delimiter-shape parse performed by `collapseInlineReveal`
(lines 507-550): cascaded regex tests keyed on the recorded mark name.
The four mixed 2/1 branches of the `bold` arm are translated verbatim
even though each is shadowed by the plain italic regex before it. -/
def collapseParse (k : Kind) (seg : List Char) : Option (Kind × List Char) :=
  match k with
  | .bold =>
    if matchWrapped seg 2 '*' || matchWrapped seg 2 '_' then
      some (.bold, innerSlice seg 2 2)
    else if matchWrapped seg 1 '*' || matchWrapped seg 1 '_' then
      some (.italic, innerSlice seg 1 1)
    else if startsEnds seg 2 1 '*' 3 then
      some (.italic, innerSlice seg 2 1)
    else if startsEnds seg 1 2 '*' 3 then
      some (.italic, innerSlice seg 1 2)
    else if startsEnds seg 2 1 '_' 3 then
      some (.italic, innerSlice seg 2 1)
    else if startsEnds seg 1 2 '_' 3 then
      some (.italic, innerSlice seg 1 2)
    else none
  | .italic =>
    if matchWrapped seg 1 '*' || matchWrapped seg 1 '_' then
      some (.italic, innerSlice seg 1 1)
    else if matchWrapped seg 2 '*' || matchWrapped seg 2 '_' then
      some (.bold, innerSlice seg 2 2)
    else none

/-- The shape derivation of `reconcileActiveBoldRevealMarks`
(lines 598-623): `{target, leftLen, rightLen}` from the literal span. -/
def deriveShape (seg : List Char) : Option (Kind × Nat × Nat) :=
  if startsEnds seg 2 2 '*' 4 || startsEnds seg 2 2 '_' 4 then
    some (.bold, 2, 2)
  else if startsEnds seg 1 1 '*' 2 || startsEnds seg 1 1 '_' 2 then
    some (.italic, 1, 1)
  else if startsEnds seg 2 1 '*' 3 then
    some (.italic, 2, 1)
  else if startsEnds seg 1 2 '*' 3 then
    some (.italic, 1, 2)
  else if startsEnds seg 2 1 '_' 3 then
    some (.italic, 2, 1)
  else if startsEnds seg 1 2 '_' 3 then
    some (.italic, 1, 2)
  else none

/-! ### Annotation range resolver (`findActiveMarkRange`, lines 292-317) -/

/-- Start index (inclusive) of the maximal run of `k`-marked characters
ending at the given index (the leftward extension of `getMarkRange`). -/
def runStartIdx (d : Doc) (k : Kind) : Nat → Nat
  | 0 => 0
  | i + 1 => if (d.get? i).any (·.hasKind k) then runStartIdx d k i else i + 1

/-- End index (exclusive) of the maximal run of `k`-marked characters
starting at the given index (the rightward extension of `getMarkRange`). -/
def runEndGo (d : Doc) (k : Kind) : Nat → Nat → Nat
  | 0, i => i + 1
  | fuel + 1, i =>
    if (d.get? (i + 1)).any (·.hasKind k) then runEndGo d k fuel (i + 1) else i + 1

/-- tiptap `getMarkRange($pos, type)` at the character level: anchor on
the character before the position (or the first character at paragraph
start), then extend to the maximal contiguous run carrying the mark.
Returns the run as a position range `[from, to)`. -/
def getMarkRangeAt (d : Doc) (p : Nat) (k : Kind) : Option (Nat × Nat) :=
  let anchor := if p ≤ 1 then 0 else p - 2
  match d.get? anchor with
  | none => none
  | some c =>
    if c.hasKind k then
      some (runStartIdx d k anchor + 1, runEndGo d k d.length anchor + 1)
    else none

/-- The `tryAt` closure of `findActiveMarkRange`: a mark found directly at
the resolved position, or on `nodeAfter`, or on `nodeBefore`, then the
mark's range. -/
def tryAtPos (d : Doc) (p : Nat) (k : Kind) : Option (Nat × Nat) :=
  let direct := match k with | .bold => (marksAtPos d p).1 | .italic => (marksAtPos d p).2
  let fromRight := (nextCharM d p).any (·.hasKind k)
  let fromLeft := (prevCharM d p).any (·.hasKind k)
  if direct || fromRight || fromLeft then getMarkRangeAt d p k else none

/-- `findActiveMarkRange(state, markName)`: empty selection only; try at
the caret, back off one position when the caret is not at document start;
accept only a range containing the caret inclusively. -/
def findActiveMarkRange (d : Doc) (selFrom selTo : Nat) (k : Kind) : Option (Nat × Nat) :=
  if selFrom ≠ selTo then none
  else
    let r0 := tryAtPos d selFrom k
    let r := match r0 with
      | some x => some x
      | none => if 1 < selFrom then tryAtPos d (selFrom - 1) k else none
    match r with
    | none => none
    | some (f, t) => if selFrom < f || t < selFrom then none else some (f, t)

/-- A reveal candidate: a mark name with its resolved range. -/
structure RevealCandidate where
  markName : Kind
  rangeFrom : Nat
  rangeTo : Nat
deriving DecidableEq, Repr

/-- `findRevealCandidate`: bold first, then italic. -/
def findRevealCandidate (d : Doc) (selFrom selTo : Nat) : Option RevealCandidate :=
  match findActiveMarkRange d selFrom selTo .bold with
  | some (f, t) => some ⟨.bold, f, t⟩
  | none =>
    match findActiveMarkRange d selFrom selTo .italic with
    | some (f, t) => some ⟨.italic, f, t⟩
    | none => none

/-- `findRevealCandidateRightOutside`: the caret sits immediately after
the end of a mark range resolved at `pos - 1`. -/
def findRevealCandidateRightOutside (d : Doc) (selFrom selTo : Nat) : Option RevealCandidate :=
  if selFrom ≠ selTo then none
  else if selFrom ≤ 1 then none
  else
    let p := selFrom - 1
    let tryKind := fun (k : Kind) =>
      let mark := (match k with | .bold => (marksAtPos d p).1 | .italic => (marksAtPos d p).2)
        || (nextCharM d p).any (·.hasKind k) || (prevCharM d p).any (·.hasKind k)
      if mark then
        match getMarkRangeAt d p k with
        | some (f, t) => if selFrom = t + 1 then some (⟨k, f, t⟩ : RevealCandidate) else none
        | none => none
      else none
    match tryKind .bold with
    | some c => some c
    | none => tryKind .italic

/-! ### Expand (`expandInlineReveal`, lines 412-476) -/

/-- Result of an expand: new document, the created reveal record, the new
caret, and whether delimiters were actually inserted (false on the
idempotency branch). -/
structure ExpandResult where
  doc : Doc
  rs : RevealState
  caret : Nat
  inserted : Bool
deriving DecidableEq, Repr

/-- The idempotency check of `expandInlineReveal`: literal delimiter text
already present immediately on both sides of the candidate range. -/
def expandIdempotent (d : Doc) (k : Kind) (a b : Nat) : Bool :=
  let syn := getRevealSyntax k
  let len := syn.length
  let hasLeft := decide (len ≤ a) && decide (textBetween d (a - len) a = syn)
  let hasRight := decide (textBetween d b (b + len) = syn)
  hasLeft && hasRight

/-- `expandInlineReveal` over candidate `{k, [a, b)}` with prior caret
`oldPos`.  On the idempotency branch (delimiters already present on both
sides) only the reveal record is instantiated.  Otherwise: insert the
closing then the opening marker, remove the other kind over the raw
`[a, b)` positions, strip the mark from both delimiter runs, and place
the caret (`tr.mapping.map(oldPos, 1)` for a caret beyond the range is
`oldPos + 2*len`). -/
def expandInlineRevealStep (d : Doc) (oldPos : Nat) (k : Kind) (a b : Nat) : ExpandResult :=
  let syn := getRevealSyntax k
  let len := syn.length
  if expandIdempotent d k a b then
    ⟨d, ⟨k, syn, a - len, b + len, none, none, none⟩, oldPos, false⟩
  else
    let d1 := insertTextAt d b syn
    let d2 := insertTextAt d1 a syn
    let d3 := removeMark d2 a b k.other
    let d4 := removeMark d3 a (a + len) k
    let d5 := removeMark d4 (b + len) (b + 2 * len) k
    let clamped := max a (min oldPos b)
    let newPos := if oldPos = b then b + 2 * len
      else if b < oldPos then oldPos + 2 * len
      else clamped + len
    ⟨d5, ⟨k, syn, a, b + 2 * len, some k, some len, some len⟩, newPos, true⟩

/-! ### Collapse (`collapseInlineReveal`, lines 478-590) -/

/-- `ch === markerChar` where `ch` may be the empty string and the marker
may be `undefined`: true only when both are present and equal. -/
def chEq : Option Char → Option Char → Bool
  | some a, some b => a == b
  | _, _ => false

/-- The leftward absorb scan: step left while the adjacent character is
the marker character, at most `fuel` (= marker length) steps, never past
position 1. -/
def absorbLeftGo (d : Doc) (marker : Option Char) : Nat → Nat → Nat
  | 0, s => s
  | fuel + 1, s =>
    if decide (1 < s) && chEq (charAtPos d (s - 1)) marker then
      absorbLeftGo d marker fuel (s - 1)
    else s

/-- The rightward absorb scan: step right while the adjacent character is
the marker character, at most `fuel` steps, never past `content.size`. -/
def absorbRightGo (d : Doc) (marker : Option Char) : Nat → Nat → Nat
  | 0, s => s
  | fuel + 1, s =>
    if decide (s < contentSize d) && chEq (charAtPos d s) marker then
      absorbRightGo d marker fuel (s + 1)
    else s

/-- `collapseInlineReveal`: absorb drifted markers, parse the absorbed
span, delete it, re-insert either the parsed inner text with its mark or
the literal segment, and reposition the caret (JS arithmetic on the caret
is signed, hence the `Int` computation, clamped into the document). -/
def collapseInlineRevealStep (d : Doc) (rs : RevealState) (oldPos : Nat) : Doc × Nat :=
  let len := rs.syn.length
  let marker := rs.syn.head?
  let revealStart := absorbLeftGo d marker len rs.start
  let revealEnd := absorbRightGo d marker len rs.endPos
  let segment := textBetween d revealStart revealEnd
  let parse := collapseParse rs.markName segment
  let d1 := deleteRange d revealStart revealEnd
  let ins :=
    match parse with
    | some (pt, pinner) =>
      if 0 < pinner.length then
        let da := insertTextAt d1 revealStart pinner
        let db := removeMark da revealStart (revealStart + pinner.length) pt.other
        let dc := addMark db revealStart (revealStart + pinner.length) pt
        (dc, pinner.length)
      else (d1, 0)
    | none => (insertTextAt d1 revealStart segment, segment.length)
  let d2 := ins.1
  let insertedLen := ins.2
  let newPos : Int :=
    if revealEnd < oldPos then
      (oldPos : Int) - ((revealEnd : Int) - (revealStart : Int)) + (insertedLen : Int)
    else if revealStart ≤ oldPos then
      if parse.isSome then
        (revealStart : Int) + max 0 (min ((oldPos : Int) - revealStart - len) insertedLen)
      else
        (revealStart : Int) + max 0 (min ((oldPos : Int) - revealStart) insertedLen)
    else (oldPos : Int)
  (d2, (max 1 (min newPos (contentSize d2 : Int))).toNat)

/-! ### Reconcile (`reconcileActiveBoldRevealMarks`, lines 592-657) -/

/-- Reconciliation of an active reveal after an edit: only acts when the
recorded mark name is `bold`; derives the shape of the current literal
span, and when it differs from the recorded shape removes both marks from
the whole span and re-annotates the inner region with the derived kind
(annotation skipped when the inner region is empty).  `none` means the
function returned `false` (no transaction dispatched). -/
def reconcileActiveBoldRevealMarks (d : Doc) (rs : RevealState) : Option (Doc × RevealState) :=
  if rs.markName ≠ .bold then none
  else
    let segment := textBetween d rs.start rs.endPos
    match deriveShape segment with
    | none => none
    | some (target, l, r) =>
      if rs.semantic = some target ∧ rs.leftLen = some l ∧ rs.rightLen = some r then none
      else
        let innerFrom := rs.start + l
        let innerTo := rs.endPos - r
        if innerTo < innerFrom then none
        else
          let d1 := removeMark d rs.start rs.endPos .bold
          let d2 := removeMark d1 rs.start rs.endPos .italic
          let d3 := if innerFrom < innerTo then addMark d2 innerFrom innerTo target else d2
          some (d3, { rs with semantic := some target, leftLen := some l, rightLen := some r })

/-! ### The reveal state machine driver (`syncInlineReveal`, lines 659-727)

The module-level mutable state of the editing surface is gathered in
`EditorCtx`: the document and selection, the optional active reveal, the
re-entrancy and suppression flags, the source-mode flag, the IME
composition flag (`_wysiwygComposing`, set by the
compositionstart/compositionend DOM handlers), and the two predicates
derived from `_inlineRevealLastKeyEvent` (a typing/deletion key within the
220 ms recency window, and specifically Backspace/Delete within it).  A
transaction notification carries its self-tag meta, whether the document
changed, and the values of `mapping.map(start, -1)` / `mapping.map(end, -1)`
for the stored reveal bounds. -/

structure TxnInfo where
  selfTag : Bool
  docChanged : Bool
  mapStart : Nat
  mapEnd : Nat
deriving DecidableEq, Repr

/-- The machine-visible mutable state: the document and selection plus
the module-level variables the sync handler reads and writes
(`_activeInlineReveal`, `_syncingInlineReveal`, `_inlineRevealJustExpanded`,
`_inlineRevealSuppressNextSelectionExpand`). -/
structure EditorCore where
  doc : Doc
  selFrom : Nat
  selTo : Nat
  activeReveal : Option RevealState
  syncing : Bool
  justExpanded : Bool
  suppressNextSelectionExpand : Bool
deriving DecidableEq, Repr

/-- The full editing-surface state: the core plus the flags the handler
only reads (`isSourceMode`, the two predicates derived from
`_inlineRevealLastKeyEvent`) and the IME composition flag
`_wysiwygComposing` set by the compositionstart/compositionend DOM
handlers. -/
structure EditorCtx where
  core : EditorCore
  sourceMode : Bool
  composing : Bool
  keyRecentTyping : Bool
  keyRecentDelete : Bool
deriving DecidableEq, Repr

/-- `collapseInlineReveal(ed)` as a state transition: no-op without an
active reveal; otherwise collapse, set the collapsed caret, clear the
reveal and the just-expanded flag (the re-entrancy flag nets to false). -/
def collapseCore (c : EditorCore) : EditorCore :=
  match c.activeReveal with
  | none => c
  | some rs =>
    let r := collapseInlineRevealStep c.doc rs c.selFrom
    { c with
      doc := r.1, selFrom := r.2, selTo := r.2, activeReveal := none,
      justExpanded := false, syncing := false }

/-- `expandInlineReveal(ed, candidate)` as a state transition: on the
idempotency branch only `_activeInlineReveal` is set; otherwise the
document, caret, reveal and just-expanded flag are updated. -/
def expandCore (c : EditorCore) (cand : RevealCandidate) : EditorCore :=
  let r := expandInlineRevealStep c.doc c.selFrom cand.markName cand.rangeFrom cand.rangeTo
  if r.inserted then
    { c with
      doc := r.doc, selFrom := r.caret, selTo := r.caret,
      activeReveal := some r.rs, justExpanded := true, syncing := false }
  else
    { c with activeReveal := some r.rs }

/-- Lines 688-705: behaviour with an active reveal once the just-expanded
grace has been handled: collapse on a non-empty selection, collapse when
the caret is strictly outside `[start, end]`, otherwise do nothing. -/
def syncActiveCore (c : EditorCore) (rs : RevealState) : EditorCore :=
  if c.selFrom ≠ c.selTo then collapseCore c
  else if c.selFrom < rs.start || rs.endPos < c.selFrom then collapseCore c
  else c

/-- Lines 708-726: behaviour with no active reveal: nothing on a
non-empty selection; consume the one-shot suppression on a pure selection
notification; otherwise resolve a candidate (with the right-outside
fallback after a recent deletion that changed the document) and expand. -/
def syncNoActiveCore (c : EditorCore) (txn : Option TxnInfo) (keyRecentDelete : Bool) :
    EditorCore :=
  if c.selFrom ≠ c.selTo then c
  else if txn.isNone && c.suppressNextSelectionExpand then
    { c with suppressNextSelectionExpand := false }
  else
    let cand0 := findRevealCandidate c.doc c.selFrom c.selTo
    let cand := match cand0 with
      | some x => some x
      | none =>
        if ((txn.map (·.docChanged)).getD false) && keyRecentDelete then
          findRevealCandidateRightOutside c.doc c.selFrom c.selTo
        else none
    match cand with
    | some x => expandCore { c with suppressNextSelectionExpand := false } x
    | none => c

/-- Lines 681-706: the recent-typing guard on pure selection
notifications, then the just-expanded grace, then the active-reveal
behaviour; with no reveal fall through to `syncNoActiveCore`. -/
def syncSelectionCore (c : EditorCore) (txn : Option TxnInfo)
    (keyRecentTyping keyRecentDelete : Bool) : EditorCore :=
  if txn.isNone && keyRecentTyping then c
  else
    match c.activeReveal with
    | some rs =>
      if c.justExpanded then
        let stillInside := c.selFrom = c.selTo
          && decide (rs.start ≤ c.selFrom) && decide (c.selFrom ≤ rs.endPos)
        let c' := { c with justExpanded := false }
        if stillInside then c' else syncActiveCore c' rs
      else syncActiveCore c rs
    | none => syncNoActiveCore c txn keyRecentDelete

/-- `syncInlineReveal(ed, transaction)` on the machine-visible state: the
re-entrancy and self-tag guards, the suppression flag on document
changes, the reveal-bounds remap and reconciliation on document changes,
then the selection phase. -/
def syncCore (c : EditorCore) (sourceMode keyRecentTyping keyRecentDelete : Bool)
    (txn : Option TxnInfo) : EditorCore :=
  if c.syncing then
    if (txn.map (·.selfTag)).getD false then { c with syncing := false } else c
  else if sourceMode then c
  else if (txn.map (·.selfTag)).getD false then c
  else
    let c1 := if (txn.map (·.docChanged)).getD false then
      { c with suppressNextSelectionExpand := true } else c
    match c1.activeReveal, txn with
    | some rs, some t =>
      if t.docChanged then
        let s' := t.mapStart
        let e' := if t.mapEnd < s' then s' else t.mapEnd
        let rs' := { rs with start := s', endPos := e' }
        match reconcileActiveBoldRevealMarks c1.doc rs' with
        | some p => { c1 with doc := p.1, activeReveal := some p.2, syncing := false }
        | none => syncSelectionCore { c1 with activeReveal := some rs' } txn
            keyRecentTyping keyRecentDelete
      else syncSelectionCore c1 txn keyRecentTyping keyRecentDelete
    | _, _ => syncSelectionCore c1 txn keyRecentTyping keyRecentDelete

/-- The full notification handler `syncInlineReveal(ed, transaction)`:
the machine-visible state is transformed by `syncCore`, which reads the
source-mode flag and the key-recency predicates but not the IME
composition flag. -/
def syncInlineReveal (st : EditorCtx) (txn : Option TxnInfo) : EditorCtx :=
  { st with
    core := syncCore st.core st.sourceMode st.keyRecentTyping st.keyRecentDelete txn }

/-! ### Search and replace (lines 1525-1540, 1598-1622, 1697-1729) -/

/-- Scan positions `s, s+1, ...` (`len` of them) for the first satisfying
the predicate. -/
def scanIdx (p : Nat → Bool) : Nat → Nat → Option Nat
  | _, 0 => none
  | s, len + 1 => if p s then some s else scanIdx p (s + 1) len

/-- JS `hay.indexOf(needle, start)` on strings, as an option (the `-1`
"not found" result becomes `none`): the first position at or after
`start` where `needle` occurs literally. -/
def jsIndexOfFrom (hay needle : List Char) (start : Nat) : Option Nat :=
  scanIdx (fun i => needle.isPrefixOf (hay.drop i)) start (hay.length + 1 - start)

/-- The `while (idx !== -1) { ...; idx = hay.indexOf(needle, idx + step) }`
occurrence-collection loop, fuelled (each found index advances the search
start, so `hay.length + 1` fuel always suffices). `step 0` restarts at
`i + needle.length` (replace-all), `step`an arbitrary advance otherwise. -/
def occurrencesGo (hay needle : List Char) : Nat → Nat → List Nat
  | 0, _ => []
  | fuel + 1, start =>
    match jsIndexOfFrom hay needle start with
    | none => []
    | some i => i :: occurrencesGo hay needle fuel (i + 1)

/-- All (possibly overlapping) occurrence positions of `needle` in `hay`,
as collected by the `indexOf`/`indexOf(·, idx + 1)` loops of
`findAllMatches`, `doSearch` and `toggleSourceMode`. -/
def occurrences (hay needle : List Char) : List Nat :=
  occurrencesGo hay needle (hay.length + 1) 0

/-- Lowercased view of a string (JS `toLowerCase`, character-wise). -/
def lowerStr (s : List Char) : List Char := s.map Char.toLower

/-- Split a document into its text nodes: maximal runs of characters
carrying identical mark sets (ProseMirror merges adjacent same-marked
text nodes). -/
def runSplit : Doc → List (List MChar)
  | [] => []
  | c :: rest =>
    match runSplit rest with
    | [] => [[c]]
    | [] :: rs => [c] :: [] :: rs
    | (x :: xs) :: rs =>
      if c.bold = x.bold && c.italic = x.italic then (c :: x :: xs) :: rs
      else [c] :: (x :: xs) :: rs

/-- The per-text-node scan of `findAllMatches`: occurrences of the
lowercased query inside each node's lowercased text, mapped to
ProseMirror ranges. -/
def findAllMatchesGo (q : List Char) : List (List MChar) → Nat → List (Nat × Nat)
  | [], _ => []
  | run :: rest, pos =>
    (occurrences (lowerStr (run.map (·.ch))) (lowerStr q)).map
      (fun i => (pos + i, pos + i + q.length))
      ++ findAllMatchesGo q rest (pos + run.length)

/-- Stable insertion into a list sorted by the range start. -/
def insertByFrom (m : Nat × Nat) : List (Nat × Nat) → List (Nat × Nat)
  | [] => [m]
  | x :: xs => if x.1 ≤ m.1 then x :: insertByFrom m xs else m :: x :: xs

/-- The final `results.sort((a, b) => a.from - b.from)`. -/
def sortByFrom : List (Nat × Nat) → List (Nat × Nat)
  | [] => []
  | x :: xs => insertByFrom x (sortByFrom xs)

/-- `findAllMatches(doc, query)`: empty query yields nothing; otherwise
scan each text node (first node at position 1) and sort by start. -/
def findAllMatches (d : Doc) (q : List Char) : List (Nat × Nat) :=
  if q = [] then [] else sortByFrom (findAllMatchesGo q (runSplit d) 1)

/-- The source-mode branch of `doSearch`: all occurrence positions of the
lowercased query in the lowercased textarea text. -/
def doSearchSourcePositions (text q : List Char) : List Nat :=
  if q = [] then [] else occurrences (lowerStr text) (lowerStr q)

/-- The `searchMarks` built by the source-mode branch of `doSearch`:
each position spans the original query's length. -/
def doSearchSourceMarks (text q : List Char) : List (Nat × Nat) :=
  (doSearchSourcePositions text q).map (fun p => (p, p + q.length))

/-- The source-mode branch of `doReplaceAll`: rebuild the text, copying
up to each case-insensitive match and appending the replacement, resuming
the search at `pos + query.length`. -/
def doReplaceAllGo (text q repl : List Char) : Nat → Nat → List Char
  | 0, lastEnd => text.drop lastEnd
  | fuel + 1, lastEnd =>
    match jsIndexOfFrom (lowerStr text) (lowerStr q) lastEnd with
    | none => text.drop lastEnd
    | some p =>
      ((text.drop lastEnd).take (p - lastEnd)) ++ repl
        ++ doReplaceAllGo text q repl fuel (p + q.length)

/-- `doReplaceAll` in source mode (the guard on an empty query is the
caller's; searches always advance by at least the query length). -/
def doReplaceAllSource (text q repl : List Char) : List Char :=
  if q = [] then text else doReplaceAllGo text q repl (text.length + 1) 0

/-! ### The position mapper (`toggleSourceMode`, lines 1106-1123 and
1149-1199) -/

/-- `Math.round(num / den)` for nonnegative JS numbers (half-up). -/
def jsRoundDiv (num den : Nat) : Nat := (2 * num + den) / (2 * den)

/-- `Math.abs(a - b)` on naturals. -/
def natDist (a b : Nat) : Nat := max a b - min a b

/-- The running-best accumulator loop of both mapping loops: track the
occurrence whose end offset (`idx + key.length`) is closest to the
proportional estimate (strict improvement, so the earliest occurrence
wins ties). -/
def chooseBestGo (keyLen approx : Nat) : List Nat → Option (Nat × Nat) → Option (Nat × Nat)
  | [], acc => acc
  | i :: rest, acc =>
    let dist := natDist (i + keyLen) approx
    let acc' := match acc with
      | none => some (i, dist)
      | some (bi, bd) => if dist < bd then some (i, dist) else some (bi, bd)
    chooseBestGo keyLen approx rest acc'

/-- Best occurrence over the collected occurrence list (`bestIdx` with
`bestDist`, starting from `bestIdx = -1, bestDist = Infinity`). -/
def chooseBest (occ : List Nat) (keyLen approx : Nat) : Option (Nat × Nat) :=
  chooseBestGo keyLen approx occ none

/-- The key-shortening loop shared by both directions of
`toggleSourceMode`: for `len` from the given start down to 3, search for
the last `len` characters of the pre-caret text in the other
representation; the first length with any occurrence yields the end
offset of the best occurrence. -/
def keySearchGo (before hay : List Char) (approx : Nat) : Nat → Option Nat
  | 0 => none
  | l + 1 =>
    if l + 1 < 3 then none
    else
      let key := before.drop (before.length - (l + 1))
      match chooseBest (occurrences hay key) key.length approx with
      | some bi => some (bi.1 + key.length)
      | none => keySearchGo before hay approx l

/-- Structured-view → plain-text caret mapping (lines 1107-1121):
`targetPos` defaults to 0 (the start of the markdown text). -/
def mapStructuredToPlain (textBefore md : List Char) (cursorPos docSize : Nat) : Nat :=
  if textBefore.length = 0 then 0
  else
    let approx := jsRoundDiv (cursorPos * md.length) (max 1 docSize)
    (keySearchGo textBefore md approx (min 30 textBefore.length)).getD 0

/-- Plain-text → structured-view caret mapping (lines 1151-1192), at the
text-offset level: `none` means no key length matched and the editor
caret stays at the document start (position 1). -/
def mapPlainToStructured (plainBefore fullText : List Char) (caretPos mdLen : Nat) :
    Option Nat :=
  if plainBefore.length = 0 then none
  else
    let approx := if 0 < mdLen then jsRoundDiv (caretPos * fullText.length) mdLen else 0
    keySearchGo plainBefore fullText approx (min 30 plainBefore.length)

/-! ### Spec-side auxiliary definitions used in the claim statements -/

/-- A character carrying exactly the given mark. -/
def markedChar (k : Kind) (c : Char) : MChar :=
  match k with
  | .bold => ⟨c, true, false⟩
  | .italic => ⟨c, false, true⟩

/-- A document consisting of plain text around a single annotated run:
the general shape of "a document containing a collapsed Bold or Italic
annotation". -/
def singleMarkDoc (k : Kind) (pre inner post : List Char) : Doc :=
  plainDoc pre ++ inner.map (markedChar k) ++ plainDoc post

/-- The content-level reveal round trip over a resolved candidate
`{k, [a, b)}`: expand, then collapse the resulting reveal state,
returning the final document. -/
def revealRoundTrip (d : Doc) (oldPos : Nat) (k : Kind) (a b : Nat) : Doc :=
  let e := expandInlineRevealStep d oldPos k a b
  (collapseInlineRevealStep e.doc e.rs e.caret).1

/-- Spec-side description of the per-text-node search (the amended
claim): inside each text node, exactly the positions where the lowercased
query occurs in the node's lowercased text, as ranges of the query's
length. -/
def nodeOccurrencesSpec (q : List Char) : List (List MChar) → Nat → List (Nat × Nat)
  | [], _ => []
  | run :: rest, pos =>
    ((List.range run.length).filter
        (fun i => (lowerStr q).isPrefixOf ((lowerStr (run.map (·.ch))).drop i))).map
      (fun i => (pos + i, pos + i + q.length))
      ++ nodeOccurrencesSpec q rest (pos + run.length)

/-- The last `n` characters of a string (JS `slice(-n)` for `0 < n ≤
length`): the mapper's search key. -/
def lastChars (s : List Char) (n : Nat) : List Char := s.drop (s.length - n)

/-! ## Theorems -/

/-- The mixed 2/1 star branch of `collapseInlineReveal` is shadowed: any
segment satisfying its test already matches the plain italic star regex
tried before it. -/
theorem mixedStar_shadowed_by_italic (seg : List Char)
    (h : startsEnds seg 2 1 '*' 3 = true) : matchWrapped seg 1 '*' = true := by
  unfold matchWrapped
  unfold startsEnds at h ⊢
  simp only [Bool.and_eq_true, decide_eq_true_eq] at h ⊢
  obtain ⟨⟨hp, hs⟩, hl⟩ := h
  refine ⟨⟨?_, hs⟩, by omega⟩
  have hp' : List.replicate 2 '*' <+: seg := by
    simpa [List.isPrefixOf_iff_prefix] using hp
  have h1 : List.replicate 1 '*' <+: List.replicate 2 '*' := by decide
  simpa [List.isPrefixOf_iff_prefix] using h1.trans hp'

/-- Claim C2: collapsing an absorbed literal span `**mi*` (two markers on
one side, one on the other) must yield an Italic annotation over `mi`
with zero leftover marker characters.  The code instead matches the span
with the plain italic regex first and yields Italic over `*mi`: one
marker character is consumed on each side only, and a literal `*`
remains inside the annotated text.  The dedicated 2/1 branch
(`slice(2, -1)`) exists in the source but is unreachable (see
`mixedStar_shadowed_by_italic`), so the code contradicts its own intent
here. -/
theorem c2_mixed_two_one_failing_input :
    collapseParse .bold ['*', '*', 'm', 'i', '*'] = some (.italic, ['*', 'm', 'i'])
      ∧ collapseParse .italic ['*', '*', 'm', 'i', '*'] = some (.italic, ['*', 'm', 'i'])
      ∧ (let d : Doc := plainDoc ['*', '*', 'm', 'i', '*']
         let rs : RevealState := ⟨.bold, ['*', '*'], 1, 6, some .bold, some 2, some 2⟩
         (collapseInlineRevealStep d rs 6).1 =
           [⟨'*', false, true⟩, ⟨'m', false, true⟩, ⟨'i', false, true⟩])
      ∧ startsEnds ['*', '*', 'm', 'i', '*'] 2 1 '*' 3 = true := by decide

/-- Claim C1 (counterexample): with a document whose character just
before the Bold annotation is the marker character `*` (text `x*bo`,
Bold over `bo`), the caret resolves the annotation, yet expanding and
collapsing extends the Bold annotation over the neighbouring literal `*`
(the collapse absorb scan captures it), so the round trip is not a no-op
on the annotation set. -/
theorem c1_roundtrip_counterexample :
    (let d : Doc := [⟨'x', false, false⟩, ⟨'*', false, false⟩,
                     ⟨'b', true, false⟩, ⟨'o', true, false⟩]
     findRevealCandidate d 4 4 = some ⟨.bold, 3, 5⟩
       ∧ revealRoundTrip d 4 .bold 3 5 ≠ d
       ∧ docText (revealRoundTrip d 4 .bold 3 5) = docText d) := by decide

/-- Claim C3 (counterexample): an active reveal whose span (`xy`, no
delimiter pattern) sits between two Bold characters.  Collapse re-inserts
the literal text verbatim and applies no mark itself, but the insertion
inherits the Bold mark present on both neighbours (ProseMirror mark
resolution at the insertion point), so the collapsed document does carry
a Bold annotation on the re-inserted text, contrary to the claim. -/
theorem c3_inherited_mark_counterexample :
    (let d : Doc := [⟨'A', true, false⟩, ⟨'x', false, false⟩,
                     ⟨'y', false, false⟩, ⟨'B', true, false⟩]
     let rs : RevealState := ⟨.bold, ['*', '*'], 2, 4, some .bold, some 2, some 2⟩
     collapseParse rs.markName (textBetween d 2 4) = none
       ∧ docText (collapseInlineRevealStep d rs 3).1 = docText d
       ∧ ((collapseInlineRevealStep d rs 3).1.get? 1).any (·.bold) = true) := by decide

/-- Claim C6 (counterexample): an active Italic reveal over `**i*` whose
recorded shape (leftLen 2) differs from the derived shape (Italic 1/1).
The claim mandates re-annotation of the inner region, which would change
the document, but `reconcileActiveBoldRevealMarks` returns without acting
because the recorded kind is not Bold. -/
theorem c6_italic_not_reconciled_counterexample :
    (let d : Doc := plainDoc ['*', '*', 'i', '*', 'x']
     let rs : RevealState := ⟨.italic, ['*'], 1, 5, some .italic, some 2, some 1⟩
     deriveShape (textBetween d rs.start rs.endPos) = some (.italic, 1, 1)
       ∧ (rs.semantic, rs.leftLen, rs.rightLen) ≠
           ((some .italic : Option Kind), (some 1 : Option Nat), (some 1 : Option Nat))
       ∧ reconcileActiveBoldRevealMarks d rs = none
       ∧ addMark (removeMark (removeMark d 1 5 .bold) 1 5 .italic) 2 4 .italic ≠ d) := by
  decide

/-- Claim C7 (counterexample): a surface state in the middle of IME
composition (`composing = true`) with an active reveal and the caret
outside its span.  A selection notification arriving in this state makes
the state machine collapse the reveal: the document's delimiter text
changes and the reveal state is destroyed, so composition does not
suspend the machine. -/
theorem c7_composition_counterexample :
    (let st : EditorCtx :=
       ⟨⟨plainDoc ['*', '*', 'b', '*', '*', 'x'], 7, 7,
         some ⟨.bold, ['*', '*'], 1, 6, some .bold, some 2, some 2⟩,
         false, false, false⟩, false, true, false, false⟩
     st.composing = true
       ∧ (syncInlineReveal st none).core.doc ≠ st.core.doc
       ∧ (syncInlineReveal st none).core.activeReveal = none) := by decide

/-- Claim C10 (counterexample): document `ab` where `a` is Bold and `b`
is plain, query `ab`.  The lowercased document text contains the query at
position 0 (and the source-mode scan finds it), but `findAllMatches`
scans one text node at a time and returns nothing. -/
theorem c10_cross_node_counterexample :
    (let d : Doc := [⟨'a', true, false⟩, ⟨'b', false, false⟩]
     findAllMatches d ['a', 'b'] = []
       ∧ occurrences (lowerStr (docText d)) (lowerStr ['a', 'b']) = [0]
       ∧ doSearchSourcePositions (docText d) ['a', 'b'] = [0]) := by decide

/-- Claim C9: over the plain text `The **cat** sat`, `findAllMatches`
with query `at` returns exactly the two ranges at `cat` and `sat`
(ProseMirror positions, first text position 1), non-overlapping and in
left-to-right order, and the source-mode replace-all with `X` yields
`The **cX** sX`. -/
theorem c9_find_and_replace_all :
    (let doc9 : Doc := plainDoc "The **cat** sat".toList
     findAllMatches doc9 "at".toList = [(8, 10), (14, 16)]
       ∧ (8 : Nat) < 10 ∧ (10 : Nat) ≤ 14 ∧ (14 : Nat) < 16
       ∧ doReplaceAllSource "The **cat** sat".toList "at".toList "X".toList
          = "The **cX** sX".toList) := by decide

/-- Claim C5: when `expandInlineReveal` actually inserts delimiters
around a candidate range `[a, b)`, a caret that sat exactly at `b` ends
up at `b + 2 * markerLen` (past both inserted markers), and a caret at
any other position inside the range ends up at its own position shifted
right by the left marker length (the clamp is the identity there). -/
theorem c5_expand_caret_placement (d : Doc) (oldPos : Nat) (k : Kind) (a b : Nat)
    (hins : (expandInlineRevealStep d oldPos k a b).inserted = true) :
    (oldPos = b →
      (expandInlineRevealStep d oldPos k a b).caret = b + 2 * (getRevealSyntax k).length)
    ∧ (a ≤ oldPos → oldPos < b →
      (expandInlineRevealStep d oldPos k a b).caret = oldPos + (getRevealSyntax k).length) := by
  by_cases hc : expandIdempotent d k a b = true
  · exfalso
    simp [expandInlineRevealStep, hc] at hins
  · rw [Bool.not_eq_true] at hc
    constructor
    · intro h
      simp [expandInlineRevealStep, hc, h]
    · intro h1 h2
      have hne : oldPos ≠ b := Nat.ne_of_lt h2
      have hnl : ¬ b < oldPos := by omega
      have hcl : max a (min oldPos b) = oldPos := by omega
      simp [expandInlineRevealStep, hc, hne, hnl, hcl]

/-- Witness for `c5_expand_caret_placement` at a concrete expand of Bold
over `[2, 4)` in `abc`. -/
theorem c5_expand_caret_placement_witness :
    (expandInlineRevealStep (plainDoc ['a', 'b', 'c']) 4 .bold 2 4).caret = 4 + 2 * 2
      ∧ (expandInlineRevealStep (plainDoc ['a', 'b', 'c']) 2 .bold 2 4).caret = 2 + 2 :=
  ⟨(c5_expand_caret_placement (plainDoc ['a', 'b', 'c']) 4 .bold 2 4 (by decide)).1 rfl,
   (c5_expand_caret_placement (plainDoc ['a', 'b', 'c']) 2 .bold 2 4 (by decide)).2
     (by decide) (by decide)⟩

/-- Claim C4: the annotation range resolver of `findActiveMarkRange`:
(i) a non-empty selection never resolves a candidate; (ii) every returned
candidate satisfies `range.start ≤ caret ≤ range.end`; (iii) when nothing
resolves at the caret position and the caret is not at document start,
the result is exactly the bounds-checked resolution one offset to the
left; (iv) at document start with no direct resolution, the resolver
gives up. -/
theorem c4_resolver_contract (d : Doc) (selFrom selTo : Nat) (k : Kind) :
    (selFrom ≠ selTo → findActiveMarkRange d selFrom selTo k = none)
    ∧ (∀ f t, findActiveMarkRange d selFrom selTo k = some (f, t) →
        f ≤ selFrom ∧ selFrom ≤ t)
    ∧ (tryAtPos d selFrom k = none → 1 < selFrom →
        findActiveMarkRange d selFrom selTo k =
          if selFrom ≠ selTo then none
          else match tryAtPos d (selFrom - 1) k with
            | none => none
            | some (f, t) => if selFrom < f || t < selFrom then none else some (f, t))
    ∧ (tryAtPos d selFrom k = none → ¬ 1 < selFrom →
        findActiveMarkRange d selFrom selTo k = none) := by
  refine ⟨?_, ?_, ?_, ?_⟩
  · intro h
    unfold findActiveMarkRange
    simp [h]
  · intro f t h
    unfold findActiveMarkRange at h
    split at h
    · exact absurd h (by simp)
    · rcases h0 : tryAtPos d selFrom k with _ | ⟨f0, t0⟩
      · simp only [h0] at h
        by_cases hlt : 1 < selFrom
        · simp only [hlt, if_true] at h
          rcases h1 : tryAtPos d (selFrom - 1) k with _ | ⟨f1, t1⟩
          · simp [h1] at h
          · simp only [h1] at h
            split at h
            · exact absurd h (by simp)
            · rename_i hcond
              simp only [Option.some.injEq, Prod.mk.injEq] at h
              simp only [Bool.or_eq_true, decide_eq_true_eq] at hcond
              push_neg at hcond
              omega
        · simp [hlt] at h
      · simp only [h0] at h
        split at h
        · exact absurd h (by simp)
        · rename_i hcond
          simp only [Option.some.injEq, Prod.mk.injEq] at h
          simp only [Bool.or_eq_true, decide_eq_true_eq] at hcond
          push_neg at hcond
          omega
  · intro h0 h1
    unfold findActiveMarkRange
    split
    · simp
    · simp [h0, h1]
  · intro h0 h1
    unfold findActiveMarkRange
    split
    · rfl
    · simp [h0, h1]

/-- Witness for `c4_resolver_contract`: a non-empty selection resolves
nothing; a resolved candidate on `x*bo` (Bold on `bo`) contains the
caret; the left-retry applies on an unmarked document. -/
theorem c4_resolver_contract_witness :
    (findActiveMarkRange [⟨'x', false, false⟩, ⟨'*', false, false⟩,
        ⟨'b', true, false⟩, ⟨'o', true, false⟩] 4 5 .bold = none)
      ∧ ((3 : Nat) ≤ 4 ∧ (4 : Nat) ≤ 5)
      ∧ findActiveMarkRange (plainDoc ['a', 'b']) 2 2 .bold = none := by
  refine ⟨?_, ?_, ?_⟩
  · exact (c4_resolver_contract _ 4 5 .bold).1 (by decide)
  · exact (c4_resolver_contract [⟨'x', false, false⟩, ⟨'*', false, false⟩,
      ⟨'b', true, false⟩, ⟨'o', true, false⟩] 4 4 .bold).2.1 3 5 (by decide)
  · have h := (c4_resolver_contract (plainDoc ['a', 'b']) 2 2 .bold).2.2.1
      (by decide) (by decide)
    simpa using h

/-! ### General lemmas about the document operations -/

theorem get?_append_pos (P Q : List MChar) (k : Nat) :
    (P ++ Q).get? (P.length + k) = Q.get? k := by
  simp [List.get?_eq_getElem?, List.getElem?_append_right]

theorem get?_append_lt (P Q : List MChar) (i : Nat) (h : i < P.length) :
    (P ++ Q).get? i = P.get? i := by
  simp [List.get?_eq_getElem?, List.getElem?_append, h]

/-- `mapRange` is the identity when the function fixes every character of
the affected slice. -/
theorem mapRange_congr_id (d : Doc) (a b : Nat) (f : MChar → MChar)
    (h : ∀ c ∈ (d.drop (a - 1)).take (b - a), f c = c) : mapRange d a b f = d := by
  unfold mapRange
  rw [List.map_congr_left h]
  have h1 : ((d.drop (a - 1)).take (b - a)).map (fun c => c)
      = (d.drop (a - 1)).take (b - a) := List.map_id' _
  rw [h1, List.append_assoc, List.take_append_drop, List.take_append_drop]

/-- Pointwise description of `mapRange`: the characters occupying
positions `[a, b)` (indices `a - 1 ≤ i < b - 1`) are transformed, the
rest untouched. -/
theorem mapRange_get? (d : Doc) (a b : Nat) (f : MChar → MChar) (i : Nat) (ha : 1 ≤ a) :
    (mapRange d a b f).get? i =
      if a ≤ i + 1 ∧ i + 1 < b then (d.get? i).map f else d.get? i := by
  unfold mapRange
  simp only [List.get?_eq_getElem?]
  rw [List.append_assoc]
  rcases Nat.lt_or_ge i d.length with hi | hi
  · by_cases h1 : i < a - 1
    · rw [List.getElem?_append, if_pos (by simp [List.length_take]; omega),
        List.getElem?_take, if_pos h1, if_neg (by omega)]
    · by_cases h2 : i + 1 < b
      · rw [List.getElem?_append, if_neg (by simp [List.length_take]; omega),
          List.getElem?_append,
          if_pos (by simp [List.length_take, List.length_map, List.length_drop]; omega),
          List.getElem?_map, List.getElem?_take,
          if_pos (by simp [List.length_take]; omega),
          List.getElem?_drop, if_pos ⟨by omega, h2⟩]
        have hidx : a - 1 + (i - (List.take (a - 1) d).length) = i := by
          simp [List.length_take]
          omega
        rw [hidx]
      · rw [List.getElem?_append, if_neg (by simp [List.length_take]; omega),
          List.getElem?_append,
          if_neg (by simp [List.length_take, List.length_map, List.length_drop]; omega),
          List.getElem?_drop, List.getElem?_drop, if_neg (by omega)]
        have hidx : a - 1 + (b - a + (i - (List.take (a - 1) d).length
            - ((List.take (b - a) (List.drop (a - 1) d)).map f).length)) = i := by
          simp [List.length_take, List.length_map, List.length_drop]
          omega
        rw [hidx]
  · have hL : (List.take (a - 1) d ++
        (((List.drop (a - 1) d).take (b - a)).map f ++ (List.drop (a - 1) d).drop (b - a)))[i]?
        = none := by
      rw [List.getElem?_eq_none_iff]
      simp [List.length_take, List.length_map, List.length_drop]
      omega
    have hR : d[i]? = none := by
      rw [List.getElem?_eq_none_iff]
      omega
    rw [hL, hR]
    split_ifs <;> simp

theorem setKind_clear_both (c : MChar) :
    (c.setKind .bold false).setKind .italic false = ⟨c.ch, false, false⟩ := by
  cases c
  rfl

/-- Claim C6 (amended): reconciliation acts only for a Bold reveal.
(i) A RevealState whose recorded kind is not Bold is never reconciled.
(ii) For a Bold reveal whose current literal span derives a shape
`{target, l, r}` different from the recorded one (and whose inner region
fits in the span), reconciliation fires: the updated record carries the
derived shape, and pointwise the full span `[start, end)` loses both
marks while exactly the inner region `[start+l, end-r)` gains the derived
kind (so an empty inner region is simply left unannotated); characters
outside the span are untouched. -/
theorem c6_reconcile_amended (d : Doc) (rs : RevealState) :
    (rs.markName ≠ .bold → reconcileActiveBoldRevealMarks d rs = none)
    ∧ (∀ target l r, rs.markName = .bold → 1 ≤ rs.start →
        deriveShape (textBetween d rs.start rs.endPos) = some (target, l, r) →
        ¬(rs.semantic = some target ∧ rs.leftLen = some l ∧ rs.rightLen = some r) →
        1 ≤ l → rs.start + l + r ≤ rs.endPos →
        (reconcileActiveBoldRevealMarks d rs).map (·.2)
            = some { rs with semantic := some target, leftLen := some l, rightLen := some r }
          ∧ ∀ i, (reconcileActiveBoldRevealMarks d rs).map (fun p => p.1.get? i)
              = some (if rs.start ≤ i + 1 ∧ i + 1 < rs.endPos then
                  (d.get? i).map (fun c =>
                    if rs.start + l ≤ i + 1 ∧ i + 1 < rs.endPos - r then
                      (⟨c.ch, false, false⟩ : MChar).setKind target true
                    else ⟨c.ch, false, false⟩)
                else d.get? i)) := by
  constructor
  · intro h
    unfold reconcileActiveBoldRevealMarks
    rw [if_pos h]
  · intro target l r hk hs hderive hne hl hle
    have hstep : reconcileActiveBoldRevealMarks d rs =
        some ((if rs.start + l < rs.endPos - r then
            addMark (removeMark (removeMark d rs.start rs.endPos .bold)
              rs.start rs.endPos .italic) (rs.start + l) (rs.endPos - r) target
          else removeMark (removeMark d rs.start rs.endPos .bold) rs.start rs.endPos .italic),
          { rs with semantic := some target, leftLen := some l, rightLen := some r }) := by
      unfold reconcileActiveBoldRevealMarks
      rw [if_neg (by simp [hk])]
      simp only [hderive]
      rw [if_neg hne, if_neg (by omega)]
    refine ⟨by rw [hstep]; rfl, ?_⟩
    intro i
    rw [hstep]
    simp only [Option.map_some']
    congr 1
    by_cases hinner : rs.start + l < rs.endPos - r
    · rw [if_pos hinner]
      unfold addMark removeMark
      rw [mapRange_get? _ _ _ _ _ (by omega), mapRange_get? _ _ _ _ _ (by omega),
        mapRange_get? _ _ _ _ _ (by omega)]
      by_cases hin : rs.start + l ≤ i + 1 ∧ i + 1 < rs.endPos - r
      · have hspan : rs.start ≤ i + 1 ∧ i + 1 < rs.endPos := by
          have := Nat.sub_le rs.endPos r
          omega
        cases hdi : d.get? i <;> simp [hspan, hin, setKind_clear_both]
      · by_cases hspan : rs.start ≤ i + 1 ∧ i + 1 < rs.endPos
        · cases hdi : d.get? i <;> simp [hspan, hin, setKind_clear_both]
        · cases hdi : d.get? i <;> simp [hspan, hin]
    · rw [if_neg hinner]
      unfold removeMark
      rw [mapRange_get? _ _ _ _ _ (by omega), mapRange_get? _ _ _ _ _ (by omega)]
      have hin : ¬(rs.start + l ≤ i + 1 ∧ i + 1 < rs.endPos - r) := by
        have := Nat.sub_le rs.endPos r
        omega
      by_cases hspan : rs.start ≤ i + 1 ∧ i + 1 < rs.endPos
      · cases hdi : d.get? i <;> simp [hspan, hin, setKind_clear_both]
      · cases hdi : d.get? i <;> simp [hspan, hin]

/-- Witness for `c6_reconcile_amended`: a Bold reveal over `*i*` whose
recorded shape (Bold 2/2) differs from the derived shape (Italic 1/1);
reconciliation updates the record and re-annotates `i` as Italic. -/
theorem c6_reconcile_amended_witness :
    (reconcileActiveBoldRevealMarks (plainDoc ['*', 'i', '*', 'x'])
        ⟨.bold, ['*', '*'], 1, 4, some .bold, some 2, some 2⟩).map (·.2)
      = some ⟨.bold, ['*', '*'], 1, 4, some .italic, some 1, some 1⟩
    ∧ (reconcileActiveBoldRevealMarks (plainDoc ['*', 'i', '*', 'x'])
        ⟨.bold, ['*', '*'], 1, 4, some .bold, some 2, some 2⟩).map (fun p => p.1.get? 1)
      = some (some ⟨'i', false, true⟩) := by
  have h := (c6_reconcile_amended (plainDoc ['*', 'i', '*', 'x'])
    ⟨.bold, ['*', '*'], 1, 4, some .bold, some 2, some 2⟩).2 .italic 1 1 rfl (by decide)
    (by decide) (by decide) (by decide) (by decide)
  refine ⟨h.1, (h.2 1).trans (by decide)⟩

/-- Claim C7 (amended): IME composition does not suspend the Reveal State
Machine.  The composition flag carried by the surface state is never
consulted by `syncInlineReveal`: the handler's entire behaviour on the
machine-visible state is independent of it (and the flag itself is left
unchanged), so edit and selection notifications arriving during
composition trigger expand/collapse/reconcile exactly as outside
composition. -/
theorem c7_sync_ignores_composition (st : EditorCtx) (txn : Option TxnInfo) (b : Bool) :
    (syncInlineReveal st txn).composing = st.composing
      ∧ syncInlineReveal { st with composing := b } txn
        = { syncInlineReveal st txn with composing := b } :=
  ⟨rfl, rfl⟩

/-! ### Characterization of the `indexOf` occurrence loops -/

theorem scanIdx_some (p : Nat → Bool) :
    ∀ (len s i : Nat), scanIdx p s len = some i →
      s ≤ i ∧ i < s + len ∧ p i = true ∧ ∀ j, s ≤ j → j < i → p j = false := by
  intro len
  induction len with
  | zero => intro s i h; simp [scanIdx] at h
  | succ n ih =>
    intro s i h
    unfold scanIdx at h
    by_cases hp : p s = true
    · rw [if_pos hp] at h
      obtain rfl : s = i := by simpa using h
      exact ⟨Nat.le_refl s, by omega, hp, fun j h1 h2 => absurd (Nat.lt_of_le_of_lt h1 h2)
        (Nat.lt_irrefl s ∘ fun hx => hx)⟩
    · rw [if_neg hp] at h
      obtain ⟨h1, h2, h3, h4⟩ := ih (s + 1) i h
      refine ⟨by omega, by omega, h3, ?_⟩
      intro j hj1 hj2
      rcases Nat.eq_or_lt_of_le hj1 with rfl | hj
      · exact Bool.not_eq_true _ ▸ (by simpa using hp)
      · exact h4 j hj hj2

theorem scanIdx_none (p : Nat → Bool) :
    ∀ (len s : Nat), scanIdx p s len = none →
      ∀ j, s ≤ j → j < s + len → p j = false := by
  intro len
  induction len with
  | zero => intro s _ j h1 h2; omega
  | succ n ih =>
    intro s h j h1 h2
    unfold scanIdx at h
    by_cases hp : p s = true
    · rw [if_pos hp] at h
      exact absurd h (by simp)
    · rw [if_neg hp] at h
      rcases Nat.eq_or_lt_of_le h1 with rfl | hj
      · simpa using hp
      · exact ih (s + 1) h j hj (by omega)

theorem prefixAt_lt_length (hay needle : List Char) (i : Nat) (hne : needle ≠ [])
    (h : needle.isPrefixOf (hay.drop i) = true) : i < hay.length := by
  by_contra hge
  have hd : hay.drop i = [] := List.drop_eq_nil_of_le (by omega)
  rw [hd, List.isPrefixOf_iff_prefix] at h
  exact hne (List.prefix_nil.mp h)

theorem filter_range_eq_cons (q : Nat → Bool) :
    ∀ (n i : Nat), i < n → q i = true → (∀ j, j < i → q j = false) →
      (List.range n).filter q
        = i :: (List.range n).filter (fun j => decide (i + 1 ≤ j) && q j) := by
  intro n
  induction n with
  | zero => intro i h; omega
  | succ n ih =>
    intro i hin hq hmin
    rw [List.range_succ, List.filter_append, List.filter_append]
    rcases Nat.lt_or_ge i n with hlt | hge
    · rw [ih i hlt hq hmin]
      have : (List.filter q [n]) = List.filter (fun j => decide (i + 1 ≤ j) && q j) [n] := by
        simp only [List.filter]
        have : decide (i + 1 ≤ n) = true := by simp; omega
        rw [this]
        simp
      rw [this]
      rfl
    · have hi : i = n := by omega
      subst hi
      have h1 : (List.range i).filter q = [] := by
        rw [List.filter_eq_nil_iff]
        intro a ha
        simp only [List.mem_range] at ha
        simp [hmin a ha]
      have h2 : (List.range i).filter (fun j => decide (i + 1 ≤ j) && q j) = [] := by
        rw [List.filter_eq_nil_iff]
        intro a ha
        simp only [List.mem_range] at ha
        simp
        intro hcon
        omega
      rw [h1, h2]
      simp [hq]

theorem occurrencesGo_eq_filter (hay needle : List Char) (hne : needle ≠ []) :
    ∀ (fuel start : Nat), hay.length + 1 ≤ start + fuel →
      occurrencesGo hay needle fuel start
        = (List.range hay.length).filter
            (fun i => decide (start ≤ i) && needle.isPrefixOf (hay.drop i)) := by
  intro fuel
  induction fuel with
  | zero =>
    intro start h
    unfold occurrencesGo
    symm
    rw [List.filter_eq_nil_iff]
    intro a ha
    simp only [List.mem_range] at ha
    simp only [Bool.and_eq_true, decide_eq_true_eq, not_and]
    intro hsa
    exact absurd hsa (by omega)
  | succ n ih =>
    intro start hfuel
    unfold occurrencesGo
    rcases hidx : jsIndexOfFrom hay needle start with _ | idx
    · show ([] : List Nat) = _
      symm
      rw [List.filter_eq_nil_iff]
      intro a ha
      simp only [List.mem_range] at ha
      simp only [Bool.and_eq_true, decide_eq_true_eq, not_and]
      intro hsa
      have := scanIdx_none _ _ _ hidx a hsa (by omega)
      simp [this]
    · show idx :: occurrencesGo hay needle n (idx + 1) = _
      obtain ⟨h1, _, h3, h4⟩ := scanIdx_some _ _ _ _ hidx
      have hlt : idx < hay.length := prefixAt_lt_length hay needle idx hne h3
      rw [ih (idx + 1) (by omega)]
      have hmin : ∀ j, j < idx →
          (decide (start ≤ j) && needle.isPrefixOf (hay.drop j)) = false := by
        intro j hj
        by_cases hsj : start ≤ j
        · simp [hsj, h4 j hsj hj]
        · simp [hsj]
      conv_rhs => rw [filter_range_eq_cons _ hay.length idx hlt (by simp [h1, h3]) hmin]
      congr 1
      apply List.filter_congr
      intro a _
      by_cases hia : idx + 1 ≤ a
      · have hsa : start ≤ a := by omega
        simp [hia, hsa]
      · simp [hia]

/-- The occurrence loop collects exactly the positions where the needle
occurs literally (possibly overlapping), in increasing order. -/
theorem occurrences_eq_filter (hay needle : List Char) (hne : needle ≠ []) :
    occurrences hay needle
      = (List.range hay.length).filter (fun i => needle.isPrefixOf (hay.drop i)) := by
  unfold occurrences
  rw [occurrencesGo_eq_filter hay needle hne (hay.length + 1) 0 (by omega)]
  apply List.filter_congr
  intro a _
  simp

theorem lowerStr_ne_nil (q : List Char) (hq : q ≠ []) : lowerStr q ≠ [] := by
  unfold lowerStr
  simpa using hq

theorem findAllMatchesGo_eq_spec (q : List Char) (hq : q ≠ []) :
    ∀ (runs : List (List MChar)) (pos : Nat),
      findAllMatchesGo q runs pos = nodeOccurrencesSpec q runs pos := by
  intro runs
  induction runs with
  | nil => intro pos; rfl
  | cons run rest ih =>
    intro pos
    unfold findAllMatchesGo nodeOccurrencesSpec
    rw [occurrences_eq_filter _ _ (lowerStr_ne_nil q hq), ih]
    congr 2
    unfold lowerStr
    simp

/-- Claim C10 (amended): search matching is case-insensitive in both
views, but exactness holds per text node in the structured view.
(i) The source-mode scan of `doSearch` returns exactly the positions
where the lowercased query occurs in the lowercased text, and its match
ranges have the original query's length.  (ii) `findAllMatches` returns
exactly the per-text-node occurrences of the lowercased query in each
node's lowercased text (sorted by range start); occurrences crossing a
text-node boundary are missed (see the counterexample). -/
theorem c10_case_insensitive_search_amended :
    (∀ text q : List Char, q ≠ [] →
      doSearchSourcePositions text q
          = (List.range text.length).filter
              (fun i => (lowerStr q).isPrefixOf ((lowerStr text).drop i))
        ∧ doSearchSourceMarks text q
          = ((List.range text.length).filter
              (fun i => (lowerStr q).isPrefixOf ((lowerStr text).drop i))).map
              (fun p => (p, p + q.length)))
    ∧ (∀ (d : Doc) (q : List Char), q ≠ [] →
        findAllMatches d q = sortByFrom (nodeOccurrencesSpec q (runSplit d) 1)) := by
  constructor
  · intro text q hq
    have hpos : doSearchSourcePositions text q
        = (List.range text.length).filter
            (fun i => (lowerStr q).isPrefixOf ((lowerStr text).drop i)) := by
      unfold doSearchSourcePositions
      rw [if_neg hq, occurrences_eq_filter _ _ (lowerStr_ne_nil q hq)]
      congr 1
      unfold lowerStr
      simp
    exact ⟨hpos, by unfold doSearchSourceMarks; rw [hpos]⟩
  · intro d q hq
    unfold findAllMatches
    rw [if_neg hq, findAllMatchesGo_eq_spec q hq]

/-- Witness for `c10_case_insensitive_search_amended` on the document
`The **cat** sat` and query `AT` (case folding visible). -/
theorem c10_case_insensitive_search_amended_witness :
    doSearchSourcePositions "The **cat** sat".toList "AT".toList
        = (List.range 15).filter
            (fun i => (lowerStr "AT".toList).isPrefixOf
              ((lowerStr "The **cat** sat".toList).drop i))
      ∧ findAllMatches (plainDoc "The **cat** sat".toList) "AT".toList
        = sortByFrom (nodeOccurrencesSpec "AT".toList
            (runSplit (plainDoc "The **cat** sat".toList)) 1) := by
  constructor
  · exact (c10_case_insensitive_search_amended.1 "The **cat** sat".toList "AT".toList
      (by decide)).1
  · exact c10_case_insensitive_search_amended.2 (plainDoc "The **cat** sat".toList)
      "AT".toList (by decide)

/-! ### Characterization of the position mapper -/

theorem chooseBestGo_spec (keyLen approx : Nat) :
    ∀ (occ : List Nat) (bi bd : Nat), bd = natDist (bi + keyLen) approx →
      ∃ bi' bd', chooseBestGo keyLen approx occ (some (bi, bd)) = some (bi', bd')
        ∧ bd' = natDist (bi' + keyLen) approx
        ∧ (bi' = bi ∨ bi' ∈ occ)
        ∧ bd' ≤ bd
        ∧ ∀ j ∈ occ, bd' ≤ natDist (j + keyLen) approx := by
  intro occ
  induction occ with
  | nil =>
    intro bi bd hbd
    exact ⟨bi, bd, rfl, hbd, Or.inl rfl, Nat.le_refl _, by simp⟩
  | cons i rest ih =>
    intro bi bd hbd
    by_cases hlt : natDist (i + keyLen) approx < bd
    · obtain ⟨bi', bd', heq, h1, h2, h3, h4⟩ := ih i (natDist (i + keyLen) approx) rfl
      refine ⟨bi', bd', ?_, h1, ?_, ?_, ?_⟩
      · unfold chooseBestGo
        simp only [if_pos hlt]
        exact heq
      · rcases h2 with h2 | h2
        · exact Or.inr (h2 ▸ List.mem_cons_self i rest)
        · exact Or.inr (List.mem_cons_of_mem i h2)
      · omega
      · intro j hj
        rcases List.mem_cons.mp hj with rfl | hj
        · exact h3
        · exact h4 j hj
    · obtain ⟨bi', bd', heq, h1, h2, h3, h4⟩ := ih bi bd hbd
      refine ⟨bi', bd', ?_, h1, ?_, h3, ?_⟩
      · unfold chooseBestGo
        simp only [if_neg hlt]
        exact heq
      · rcases h2 with h2 | h2
        · exact Or.inl h2
        · exact Or.inr (List.mem_cons_of_mem i h2)
      · intro j hj
        rcases List.mem_cons.mp hj with rfl | hj
        · omega
        · exact h4 j hj

/-- Over a non-empty occurrence list the running-best loop returns an
occurrence whose end-offset distance to the estimate is minimal. -/
theorem chooseBest_spec (occ : List Nat) (keyLen approx : Nat) (hne : occ ≠ []) :
    ∃ bi bd, chooseBest occ keyLen approx = some (bi, bd)
      ∧ bi ∈ occ ∧ bd = natDist (bi + keyLen) approx
      ∧ ∀ j ∈ occ, bd ≤ natDist (j + keyLen) approx := by
  rcases occ with _ | ⟨i, rest⟩
  · exact absurd rfl hne
  · obtain ⟨bi', bd', heq, h1, h2, h3, h4⟩ :=
      chooseBestGo_spec keyLen approx rest i (natDist (i + keyLen) approx) rfl
    refine ⟨bi', bd', ?_, ?_, h1, ?_⟩
    · unfold chooseBest chooseBestGo
      exact heq
    · rcases h2 with rfl | h2
      · exact List.mem_cons_self _ _
      · exact List.mem_cons_of_mem i h2
    · intro j hj
      rcases List.mem_cons.mp hj with rfl | hj
      · exact h3
      · exact h4 j hj

theorem chooseBest_eq_none (occ : List Nat) (keyLen approx : Nat)
    (h : chooseBest occ keyLen approx = none) : occ = [] := by
  rcases hocc : occ with _ | ⟨i, rest⟩
  · rfl
  · subst hocc
    obtain ⟨bi, bd, heq, _⟩ := chooseBest_spec (i :: rest) keyLen approx (by simp)
    rw [heq] at h
    exact absurd h (by simp)

theorem keySearchGo_succ (before hay : List Char) (approx n : Nat) :
    keySearchGo before hay approx (n + 1)
      = if n + 1 < 3 then none
        else match chooseBest (occurrences hay (before.drop (before.length - (n + 1))))
            (before.drop (before.length - (n + 1))).length approx with
          | some bi => some (bi.1 + (before.drop (before.length - (n + 1))).length)
          | none => keySearchGo before hay approx n := rfl

theorem keySearchGo_eq_none (before hay : List Char) (approx : Nat) :
    ∀ L, (∀ l, 3 ≤ l → l ≤ L → occurrences hay (lastChars before l) = []) →
      keySearchGo before hay approx L = none := by
  intro L
  induction L with
  | zero => intro _; rfl
  | succ n ih =>
    intro h
    rw [keySearchGo_succ]
    by_cases hlen : n + 1 < 3
    · rw [if_pos hlen]
    · rw [if_neg hlen]
      have hocc : occurrences hay (before.drop (before.length - (n + 1))) = [] :=
        h (n + 1) (by omega) (Nat.le_refl _)
      rw [hocc]
      show keySearchGo before hay approx n = none
      exact ih (fun l h1 h2 => h l h1 (by omega))

theorem keySearchGo_eq_some (before hay : List Char) (approx : Nat) :
    ∀ L, L ≤ before.length → ∀ t, keySearchGo before hay approx L = some t →
      ∃ l, 3 ≤ l ∧ l ≤ L
        ∧ (∀ l', l < l' → l' ≤ L → occurrences hay (lastChars before l') = [])
        ∧ ∃ i, i ∈ occurrences hay (lastChars before l) ∧ t = i + l
          ∧ ∀ j ∈ occurrences hay (lastChars before l),
              natDist (i + l) approx ≤ natDist (j + l) approx := by
  intro L
  induction L with
  | zero => intro _ t h; exact absurd h (by simp [keySearchGo])
  | succ n ih =>
    intro hL t h
    rw [keySearchGo_succ] at h
    by_cases hlen : n + 1 < 3
    · rw [if_pos hlen] at h
      exact absurd h (by simp)
    · rw [if_neg hlen] at h
      have hkeylen : (before.drop (before.length - (n + 1))).length = n + 1 := by
        rw [List.length_drop]
        omega
      rcases hocc : chooseBest (occurrences hay (before.drop (before.length - (n + 1))))
          (before.drop (before.length - (n + 1))).length approx with _ | ⟨bi, bd⟩
      · rw [hocc] at h
        obtain ⟨l, h1, h2, h3, rest⟩ := ih (by omega) t h
        refine ⟨l, h1, by omega, ?_, rest⟩
        intro l' hl1 hl2
        rcases Nat.eq_or_lt_of_le hl2 with rfl | hl3
        · exact chooseBest_eq_none _ _ _ hocc
        · exact h3 l' hl1 (by omega)
      · rw [hocc] at h
        have hne : occurrences hay (before.drop (before.length - (n + 1))) ≠ [] := by
          intro hnil
          rw [hnil] at hocc
          exact absurd hocc (by simp [chooseBest, chooseBestGo])
        obtain ⟨bi', bd', heq, hmem, hdist, hmin⟩ := chooseBest_spec _ _ approx hne
        rw [hocc] at heq
        obtain ⟨hbi, hbd⟩ : bi = bi' ∧ bd = bd' := by simpa using heq
        subst hbi
        subst hbd
        simp only [Option.some.injEq] at h
        refine ⟨n + 1, by omega, Nat.le_refl _, ?_, bi, hmem, ?_, ?_⟩
        · intro l' h1 h2
          exact absurd (Nat.lt_of_lt_of_le h1 h2) (Nat.lt_irrefl _)
        · rw [← h, hkeylen]
        · intro j hj
          have h2 := hmin j hj
          rw [hkeylen] at h2 hdist
          omega

/-- Claim C8: the position mapper of `toggleSourceMode`.
(i) The shared key-shortening search: given a pre-caret text and the
other representation, for key lengths from the start value down to 3
(each key being the last `l` characters of the pre-caret text), if no
length has a literal occurrence the search yields nothing; if it yields
an end offset `t` then `t = i + l` for the largest length `l` that has
any occurrence, where `i` is an occurrence of that key whose end offset
is closest to the proportional estimate.
(ii)/(iii) When no key of any length from `min 30 |before|` down to 3
matches, the structured→plain mapping returns offset 0 (the markdown
start) and the plain→structured mapping returns `none` (the editor caret
stays at document start).
(iv) Otherwise the structured→plain mapping returns exactly the search's
result, the estimate being `round(cursorPos / max 1 docSize * |md|)`. -/
theorem c8_position_mapper :
    (∀ (before hay : List Char) (approx L : Nat), L ≤ before.length →
      ((∀ l, 3 ≤ l → l ≤ L → occurrences hay (lastChars before l) = []) →
        keySearchGo before hay approx L = none)
      ∧ (∀ t, keySearchGo before hay approx L = some t →
          ∃ l, 3 ≤ l ∧ l ≤ L
            ∧ (∀ l', l < l' → l' ≤ L → occurrences hay (lastChars before l') = [])
            ∧ ∃ i, i ∈ occurrences hay (lastChars before l) ∧ t = i + l
              ∧ ∀ j ∈ occurrences hay (lastChars before l),
                  natDist (i + l) approx ≤ natDist (j + l) approx))
    ∧ (∀ (textBefore md : List Char) (cursorPos docSize : Nat),
        (∀ l, 3 ≤ l → l ≤ min 30 textBefore.length →
          occurrences md (lastChars textBefore l) = []) →
        mapStructuredToPlain textBefore md cursorPos docSize = 0)
    ∧ (∀ (plainBefore fullText : List Char) (caretPos mdLen : Nat),
        (∀ l, 3 ≤ l → l ≤ min 30 plainBefore.length →
          occurrences fullText (lastChars plainBefore l) = []) →
        mapPlainToStructured plainBefore fullText caretPos mdLen = none)
    ∧ (∀ (textBefore md : List Char) (cursorPos docSize t : Nat),
        keySearchGo textBefore md
            (jsRoundDiv (cursorPos * md.length) (max 1 docSize)) (min 30 textBefore.length)
          = some t →
        mapStructuredToPlain textBefore md cursorPos docSize = t) := by
  refine ⟨?_, ?_, ?_, ?_⟩
  · intro before hay approx L hL
    exact ⟨keySearchGo_eq_none before hay approx L,
      keySearchGo_eq_some before hay approx L hL⟩
  · intro textBefore md cursorPos docSize h
    unfold mapStructuredToPlain
    by_cases h0 : textBefore.length = 0
    · rw [if_pos h0]
    · rw [if_neg h0]
      show (keySearchGo textBefore md (jsRoundDiv (cursorPos * md.length) (max 1 docSize))
        (min 30 textBefore.length)).getD 0 = 0
      rw [keySearchGo_eq_none textBefore md _ (min 30 textBefore.length) h]
      rfl
  · intro plainBefore fullText caretPos mdLen h
    unfold mapPlainToStructured
    by_cases h0 : plainBefore.length = 0
    · rw [if_pos h0]
    · rw [if_neg h0]
      exact keySearchGo_eq_none plainBefore fullText _ (min 30 plainBefore.length) h
  · intro textBefore md cursorPos docSize t h
    unfold mapStructuredToPlain
    have h0 : textBefore.length ≠ 0 := by
      intro h0
      rw [h0] at h
      simp only [Nat.min_zero] at h
      exact absurd h (by simp [keySearchGo])
    rw [if_neg h0]
    show (keySearchGo textBefore md (jsRoundDiv (cursorPos * md.length) (max 1 docSize))
      (min 30 textBefore.length)).getD 0 = t
    rw [h]
    rfl

/-- Witness for `c8_position_mapper`: no key of `abc` occurs in `zzzzzz`
so the mapped offset defaults to the start; the key search on
`hello wor` against `# hello world` (caret 10 of size 12) yields end
offset 11 and the mapper returns it. -/
theorem c8_position_mapper_witness :
    mapStructuredToPlain "abc".toList "zzzzzz".toList 2 5 = 0
      ∧ mapPlainToStructured "abc".toList "zzzzzz".toList 2 5 = none
      ∧ mapStructuredToPlain "hello wor".toList "# hello world".toList 10 12 = 11 := by
  refine ⟨?_, ?_, ?_⟩
  · refine c8_position_mapper.2.1 "abc".toList "zzzzzz".toList 2 5 ?_
    intro l h1 h2
    have hlen : ("abc".toList.length) = 3 := rfl
    rw [hlen] at h2
    have h3 : l = 3 := by omega
    subst h3
    decide
  · refine c8_position_mapper.2.2.1 "abc".toList "zzzzzz".toList 2 5 ?_
    intro l h1 h2
    have hlen : ("abc".toList.length) = 3 := rfl
    rw [hlen] at h2
    have h3 : l = 3 := by omega
    subst h3
    decide
  · exact c8_position_mapper.2.2.2 "hello wor".toList "# hello world".toList 10 12 11
      (by decide)

/-! ### Bounds of the absorb scans, and collapse on a parse failure -/

theorem absorbLeftGo_le (d : Doc) (m : Option Char) :
    ∀ fuel s, absorbLeftGo d m fuel s ≤ s := by
  intro fuel
  induction fuel with
  | zero => intro s; exact Nat.le_refl s
  | succ n ih =>
    intro s
    unfold absorbLeftGo
    split
    · exact Nat.le_trans (ih (s - 1)) (Nat.sub_le s 1)
    · exact Nat.le_refl s

theorem absorbLeftGo_pos (d : Doc) (m : Option Char) :
    ∀ fuel s, 1 ≤ s → 1 ≤ absorbLeftGo d m fuel s := by
  intro fuel
  induction fuel with
  | zero => intro s h; exact h
  | succ n ih =>
    intro s h
    unfold absorbLeftGo
    split
    · rename_i hc
      simp only [Bool.and_eq_true, decide_eq_true_eq] at hc
      exact ih (s - 1) (by omega)
    · exact h

theorem absorbRightGo_ge (d : Doc) (m : Option Char) :
    ∀ fuel s, s ≤ absorbRightGo d m fuel s := by
  intro fuel
  induction fuel with
  | zero => intro s; exact Nat.le_refl s
  | succ n ih =>
    intro s
    unfold absorbRightGo
    split
    · exact Nat.le_trans (Nat.le_succ s) (ih (s + 1))
    · exact Nat.le_refl s

theorem chEq_charAtPos_bounds (d : Doc) (s : Nat) (m : Option Char)
    (h : chEq (charAtPos d s) m = true) : 1 ≤ s ∧ s ≤ d.length := by
  unfold charAtPos at h
  by_cases h0 : s = 0
  · rw [if_pos h0] at h
    exact absurd h (by simp [chEq])
  · rw [if_neg h0] at h
    rcases hg : d.get? (s - 1) with _ | c
    · rw [hg] at h
      exact absurd h (by simp [chEq])
    · have hlt : s - 1 < d.length := by
        by_contra hge
        rw [List.get?_eq_none.mpr (by omega)] at hg
        exact absurd hg (by simp)
      exact ⟨by omega, by omega⟩

theorem absorbRightGo_le (d : Doc) (m : Option Char) :
    ∀ fuel s, s ≤ d.length + 1 → absorbRightGo d m fuel s ≤ d.length + 1 := by
  intro fuel
  induction fuel with
  | zero => intro s h; exact h
  | succ n ih =>
    intro s h
    unfold absorbRightGo
    split
    · rename_i hc
      simp only [Bool.and_eq_true, decide_eq_true_eq] at hc
      have := chEq_charAtPos_bounds d s m hc.2
      exact ih (s + 1) (by omega)
    · exact h

theorem absorbLeftGo_stop (d : Doc) (m : Option Char) (s : Nat)
    (h : (decide (1 < s) && chEq (charAtPos d (s - 1)) m) = false) :
    ∀ fuel, absorbLeftGo d m fuel s = s := by
  intro fuel
  cases fuel with
  | zero => rfl
  | succ n =>
    unfold absorbLeftGo
    rw [if_neg (by simp [h])]

theorem absorbRightGo_stop (d : Doc) (m : Option Char) (s : Nat)
    (h : (decide (s < contentSize d) && chEq (charAtPos d s) m) = false) :
    ∀ fuel, absorbRightGo d m fuel s = s := by
  intro fuel
  cases fuel with
  | zero => rfl
  | succ n =>
    unfold absorbRightGo
    rw [if_neg (by simp [h])]

/-- Claim C3 (amended): when the absorbed literal span parses as none of
the delimiter patterns, collapse deletes the span `[rS, rE)` and
re-inserts exactly its text: the result is the original document with
the span's characters kept verbatim (and unmarked, provided no mark is
inherited at the re-insertion point), so the text content of the
document is unchanged — collapse never loses user-typed characters. -/
theorem c3_collapse_verbatim_amended (d : Doc) (rs : RevealState) (oldPos rS rE : Nat)
    (hrS : rS = absorbLeftGo d rs.syn.head? rs.syn.length rs.start)
    (hrE : rE = absorbRightGo d rs.syn.head? rs.syn.length rs.endPos)
    (hs : 1 ≤ rs.start) (hse : rs.start ≤ rs.endPos) (he : rs.endPos ≤ d.length + 1)
    (hparse : collapseParse rs.markName (textBetween d rS rE) = none)
    (hmarks : marksAtPos (deleteRange d rS rE) rS = (false, false)) :
    (collapseInlineRevealStep d rs oldPos).1
        = d.take (rS - 1) ++ plainDoc (textBetween d rS rE) ++ d.drop (rE - 1)
      ∧ docText (collapseInlineRevealStep d rs oldPos).1 = docText d := by
  have hb1 : rS ≤ rs.start := hrS ▸ absorbLeftGo_le d rs.syn.head? rs.syn.length rs.start
  have hb2 : 1 ≤ rS := hrS ▸ absorbLeftGo_pos d rs.syn.head? rs.syn.length rs.start hs
  have hb3 : rs.endPos ≤ rE := hrE ▸ absorbRightGo_ge d rs.syn.head? rs.syn.length rs.endPos
  have hb4 : rE ≤ d.length + 1 :=
    hrE ▸ absorbRightGo_le d rs.syn.head? rs.syn.length rs.endPos he
  have hb5 : rS ≤ rE := by omega
  have hstep : (collapseInlineRevealStep d rs oldPos).1
      = insertTextAt (deleteRange d rS rE) rS (textBetween d rS rE) := by
    unfold collapseInlineRevealStep
    simp only [← hrS, ← hrE, hparse]
  have hlenA : (d.take (rS - 1)).length = rS - 1 := List.length_take_of_le (by omega)
  have hA : (deleteRange d rS rE).take (rS - 1) = d.take (rS - 1) := by
    unfold deleteRange
    rw [List.take_append_of_le_length (by omega), List.take_take, Nat.min_self]
  have hB : (deleteRange d rS rE).drop (rS - 1) = d.drop (rE - 1) := by
    unfold deleteRange
    have hdl := List.drop_left (d.take (rS - 1)) ((d.drop (rS - 1)).drop (rE - rS))
    rw [hlenA] at hdl
    rw [hdl, List.drop_drop]
    congr 1
    omega
  have h1 : (collapseInlineRevealStep d rs oldPos).1
      = d.take (rS - 1) ++ plainDoc (textBetween d rS rE) ++ d.drop (rE - 1) := by
    rw [hstep]
    unfold insertTextAt
    simp only [hmarks]
    rw [hA, hB]
    rfl
  refine ⟨h1, ?_⟩
  rw [h1]
  have hdocplain : docText (plainDoc (textBetween d rS rE)) = textBetween d rS rE := by
    unfold docText plainDoc
    rw [List.map_map]
    exact List.map_id' _
  have hsplit : d.drop (rE - 1) = (d.drop (rS - 1)).drop (rE - rS) := by
    rw [List.drop_drop]
    congr 1
    omega
  have hmax : max rS 1 = rS := by omega
  calc docText (d.take (rS - 1) ++ plainDoc (textBetween d rS rE) ++ d.drop (rE - 1))
      = docText (d.take (rS - 1)) ++ (docText (plainDoc (textBetween d rS rE))
          ++ docText (d.drop (rE - 1))) := by
        unfold docText
        simp [List.map_append]
    _ = docText (d.take (rS - 1)) ++ (textBetween d rS rE ++ docText (d.drop (rE - 1))) := by
        rw [hdocplain]
    _ = docText d := by
        unfold docText textBetween
        rw [hmax, hsplit, ← List.map_append, ← List.map_append,
          List.take_append_drop, List.take_append_drop]

/-- Witness for `c3_collapse_verbatim_amended`: collapsing an active
reveal over `??` inside `a??b` (no delimiter pattern) re-creates the
document verbatim. -/
theorem c3_collapse_verbatim_amended_witness :
    (collapseInlineRevealStep (plainDoc ['a', '?', '?', 'b'])
        ⟨.bold, ['*', '*'], 2, 4, some .bold, some 2, some 2⟩ 3).1
      = plainDoc ['a', '?', '?', 'b'] := by
  have h := c3_collapse_verbatim_amended (plainDoc ['a', '?', '?', 'b'])
    ⟨.bold, ['*', '*'], 2, 4, some .bold, some 2, some 2⟩ 3 2 4
    (by decide) (by decide) (by decide) (by decide) (by decide) (by decide) (by decide)
  exact h.1.trans (by decide)

/-! ### Operations at append boundaries, and mark bookkeeping facts -/

theorem mem_plainDoc (c : MChar) (s : List Char) (h : c ∈ plainDoc s) :
    c.bold = false ∧ c.italic = false := by
  unfold plainDoc at h
  obtain ⟨x, _, rfl⟩ := List.mem_map.mp h
  exact ⟨rfl, rfl⟩

theorem mem_markedDoc_other (c : MChar) (k : Kind) (s : List Char)
    (h : c ∈ s.map (markedChar k)) : c.hasKind k.other = false := by
  obtain ⟨x, _, rfl⟩ := List.mem_map.mp h
  cases k <;> rfl

theorem hasKind_false_of_plain (c : MChar) (kk : Kind)
    (hb : c.bold = false) (hi : c.italic = false) : c.hasKind kk = false := by
  cases kk
  · exact hb
  · exact hi

theorem setKind_id_of_not (c : MChar) (kk : Kind) (h : c.hasKind kk = false) :
    c.setKind kk false = c := by
  cases c
  cases kk <;> simp_all [MChar.hasKind, MChar.setKind]

theorem removeMark_id_of_flags (d : Doc) (a b : Nat) (kk : Kind)
    (h : ∀ c ∈ d, c.hasKind kk = false) : removeMark d a b kk = d := by
  unfold removeMark
  apply mapRange_congr_id
  intro c hc
  exact setKind_id_of_not c kk (h c (List.mem_of_mem_drop (List.mem_of_mem_take hc)))

theorem marksAtPos_false_next (d : Doc) (p : Nat)
    (h : ∀ c, nextCharM d p = some c → c.bold = false ∧ c.italic = false) :
    marksAtPos d p = (false, false) := by
  unfold marksAtPos
  rcases hp : prevCharM d p with _ | c1
  · rcases hn : nextCharM d p with _ | c2 <;> rfl
  · rcases hn : nextCharM d p with _ | c2
    · rfl
    · obtain ⟨hb, hi⟩ := h c2 hn
      simp [hb, hi]

theorem marksAtPos_false_prev (d : Doc) (p : Nat)
    (h : ∀ c, prevCharM d p = some c → c.bold = false ∧ c.italic = false) :
    marksAtPos d p = (false, false) := by
  unfold marksAtPos
  rcases hp : prevCharM d p with _ | c1
  · rcases hn : nextCharM d p with _ | c2 <;> rfl
  · rcases hn : nextCharM d p with _ | c2
    · rfl
    · obtain ⟨hb, hi⟩ := h c1 hp
      simp [hb, hi]

theorem insertTextAt_boundary (P R : Doc) (s : List Char)
    (hm : marksAtPos (P ++ R) (P.length + 1) = (false, false)) :
    insertTextAt (P ++ R) (P.length + 1) s = P ++ plainDoc s ++ R := by
  unfold insertTextAt plainDoc
  simp only [hm, Nat.add_sub_cancel]
  rw [List.take_left, List.drop_left]

theorem deleteRange_boundary (P M R : Doc) :
    deleteRange (P ++ M ++ R) (P.length + 1) (P.length + M.length + 1) = P ++ R := by
  unfold deleteRange
  have h2 : P.length + M.length + 1 - (P.length + 1) = M.length := by omega
  simp only [Nat.add_sub_cancel, h2]
  rw [List.append_assoc, List.take_left, List.drop_left, List.drop_left]

theorem mapRange_boundary (P M R : Doc) (f : MChar → MChar) :
    mapRange (P ++ M ++ R) (P.length + 1) (P.length + M.length + 1) f
      = P ++ M.map f ++ R := by
  unfold mapRange
  have h2 : P.length + M.length + 1 - (P.length + 1) = M.length := by omega
  simp only [Nat.add_sub_cancel, h2]
  rw [List.append_assoc P M R, List.take_left, List.drop_left, List.take_left,
    List.drop_left, List.append_assoc]

theorem textBetween_boundary (P M R : Doc) :
    textBetween (P ++ M ++ R) (P.length + 1) (P.length + M.length + 1) = docText M := by
  unfold textBetween docText
  have hmax : max (P.length + 1) 1 = P.length + 1 := by omega
  have h2 : P.length + M.length + 1 - (P.length + 1) = M.length := by omega
  rw [hmax]
  simp only [Nat.add_sub_cancel, h2]
  rw [List.append_assoc, List.drop_left, List.take_left]

theorem docText_plainDoc (s : List Char) : docText (plainDoc s) = s := by
  unfold docText plainDoc
  rw [List.map_map]
  exact List.map_id' _

theorem docText_markedDoc (k : Kind) (s : List Char) :
    docText (s.map (markedChar k)) = s := by
  unfold docText
  rw [List.map_map]
  have : ((fun c : MChar => c.ch) ∘ markedChar k) = fun c => c := by
    funext c
    cases k <;> rfl
  rw [this]
  exact List.map_id' _

theorem map_plainDoc_setKind (s : List Char) (k : Kind) :
    (plainDoc s).map (fun c => c.setKind k true) = s.map (markedChar k) := by
  unfold plainDoc
  rw [List.map_map]
  apply List.map_congr_left
  intro c _
  cases k <;> rfl

theorem synlen_pos (k : Kind) : 1 ≤ (getRevealSyntax k).length := by
  cases k <;> simp [getRevealSyntax]

theorem syn_get_zero (k : Kind) : (getRevealSyntax k).get? 0 = some '*' := by
  cases k <;> rfl

/-- The cascaded regex parse recovers a canonically wrapped nonempty
inner text exactly. -/
theorem collapseParse_wrapped (k : Kind) (inner : List Char) (hne : 1 ≤ inner.length) :
    collapseParse k (getRevealSyntax k ++ inner ++ getRevealSyntax k) = some (k, inner) := by
  cases k
  case bold =>
    have hmw : matchWrapped (getRevealSyntax .bold ++ inner ++ getRevealSyntax .bold)
        2 '*' = true := by
      unfold matchWrapped startsEnds
      simp only [getRevealSyntax, Bool.and_eq_true, decide_eq_true_eq]
      have hr : List.replicate 2 '*' = ['*', '*'] := rfl
      refine ⟨⟨?_, ?_⟩, ?_⟩
      · rw [List.isPrefixOf_iff_prefix, hr]
        exact List.prefix_append _ _
      · rw [List.isSuffixOf_iff_suffix, hr]
        exact List.suffix_append _ _
      · simp
        omega
    simp only [collapseParse, hmw, Bool.true_or, if_true]
    have hs : (getRevealSyntax .bold ++ inner ++ getRevealSyntax .bold).length
        = inner.length + 4 := by
      simp [getRevealSyntax]
    unfold innerSlice
    rw [hs]
    have h4 : inner.length + 4 - 2 - 2 = inner.length := by omega
    rw [h4]
    have hd : (getRevealSyntax .bold ++ inner ++ getRevealSyntax .bold).drop 2
        = inner ++ getRevealSyntax .bold := rfl
    rw [hd, List.take_left]
  case italic =>
    have hmw : matchWrapped (getRevealSyntax .italic ++ inner ++ getRevealSyntax .italic)
        1 '*' = true := by
      unfold matchWrapped startsEnds
      simp only [getRevealSyntax, Bool.and_eq_true, decide_eq_true_eq]
      have hr : List.replicate 1 '*' = ['*'] := rfl
      refine ⟨⟨?_, ?_⟩, ?_⟩
      · rw [List.isPrefixOf_iff_prefix, hr]
        exact List.prefix_append _ _
      · rw [List.isSuffixOf_iff_suffix, hr]
        exact List.suffix_append _ _
      · simp
        omega
    simp only [collapseParse, hmw, Bool.true_or, if_true]
    have hs : (getRevealSyntax .italic ++ inner ++ getRevealSyntax .italic).length
        = inner.length + 2 := by
      simp [getRevealSyntax]
    unfold innerSlice
    rw [hs]
    have h2 : inner.length + 2 - 1 - 1 = inner.length := by omega
    rw [h2]
    have hd : (getRevealSyntax .italic ++ inner ++ getRevealSyntax .italic).drop 1
        = inner ++ getRevealSyntax .italic := rfl
    rw [hd, List.take_left]

theorem map_setKind_false_plain (s : List Char) (k : Kind) :
    (plainDoc s).map (fun c => c.setKind k false) = plainDoc s := by
  unfold plainDoc
  rw [List.map_map]
  apply List.map_congr_left
  intro c _
  cases k <;> rfl

/-- Expanding a collapsed single-mark document whose following character
is not the marker: the resulting content and reveal record, explicitly. -/
theorem expand_content_single (k : Kind) (pre inner post : List Char) (oldPos : Nat)
    (hpost : ∀ c, post.head? = some c → c ≠ '*') :
    (expandInlineRevealStep (singleMarkDoc k pre inner post) oldPos k (pre.length + 1)
        (pre.length + inner.length + 1)).doc
      = plainDoc pre ++ plainDoc (getRevealSyntax k) ++ List.map (markedChar k) inner
          ++ plainDoc (getRevealSyntax k) ++ plainDoc post
    ∧ (expandInlineRevealStep (singleMarkDoc k pre inner post) oldPos k (pre.length + 1)
        (pre.length + inner.length + 1)).rs
      = ⟨k, getRevealSyntax k, pre.length + 1,
          pre.length + inner.length + 1 + 2 * (getRevealSyntax k).length,
          some k, some (getRevealSyntax k).length, some (getRevealSyntax k).length⟩ := by
  have hidem : expandIdempotent
      (plainDoc pre ++ List.map (markedChar k) inner ++ plainDoc post) k
      (pre.length + 1) (pre.length + inner.length + 1) = false := by
    have hR : textBetween (plainDoc pre ++ List.map (markedChar k) inner ++ plainDoc post)
        (pre.length + inner.length + 1)
        (pre.length + inner.length + 1 + (getRevealSyntax k).length)
        ≠ getRevealSyntax k := by
      intro heq
      unfold textBetween at heq
      have hmax : max (pre.length + inner.length + 1) 1 = pre.length + inner.length + 1 := by
        omega
      rw [hmax] at heq
      simp only [Nat.add_sub_cancel] at heq
      have hdl : (plainDoc pre ++ List.map (markedChar k) inner
          ++ plainDoc post).drop (pre.length + inner.length) = plainDoc post := by
        have hl : pre.length + inner.length
            = (plainDoc pre ++ List.map (markedChar k) inner).length := by simp [plainDoc]
        rw [hl, List.drop_left]
      rw [hdl] at heq
      rcases post with _ | ⟨c0, rest⟩
      · cases k <;> simp [plainDoc, getRevealSyntax] at heq
      · have hc0 : c0 ≠ '*' := hpost c0 rfl
        have h0 := congrArg (fun l => l[0]?) heq
        simp only [List.getElem?_map, List.getElem?_take] at h0
        rw [if_pos (by have := synlen_pos k; omega)] at h0
        have hsyn0 : (getRevealSyntax k)[0]? = some '*' := by cases k <;> rfl
        rw [hsyn0] at h0
        simp [plainDoc] at h0
        exact hc0 h0
    simp only [expandIdempotent]
    rw [decide_eq_false hR]
    simp
  have hm1 : marksAtPos ((plainDoc pre ++ List.map (markedChar k) inner) ++ plainDoc post)
      ((plainDoc pre ++ List.map (markedChar k) inner).length + 1) = (false, false) := by
    apply marksAtPos_false_next
    intro c hc
    unfold nextCharM at hc
    rw [if_pos (by omega)] at hc
    simp only [Nat.add_sub_cancel] at hc
    have hc2 : (plainDoc post).get? 0 = some c := by
      rw [← get?_append_pos (plainDoc pre ++ List.map (markedChar k) inner) (plainDoc post) 0]
      exact hc
    exact mem_plainDoc c post (List.get?_mem hc2)
  have h1 : insertTextAt (plainDoc pre ++ List.map (markedChar k) inner ++ plainDoc post)
      (pre.length + inner.length + 1) (getRevealSyntax k)
      = plainDoc pre ++ List.map (markedChar k) inner ++ plainDoc (getRevealSyntax k)
          ++ plainDoc post := by
    have hP0 : pre.length + inner.length + 1
        = (plainDoc pre ++ List.map (markedChar k) inner).length + 1 := by simp [plainDoc]
    rw [hP0, insertTextAt_boundary _ _ _ hm1]
  have hm2 : marksAtPos (plainDoc pre ++ (List.map (markedChar k) inner
      ++ (plainDoc (getRevealSyntax k) ++ plainDoc post)))
      ((plainDoc pre).length + 1) = (false, false) := by
    apply marksAtPos_false_prev
    intro c hc
    unfold prevCharM at hc
    by_cases hp : 2 ≤ (plainDoc pre).length + 1
    · rw [if_pos hp] at hc
      rw [get?_append_lt (plainDoc pre) _ ((plainDoc pre).length + 1 - 2) (by omega)] at hc
      exact mem_plainDoc c pre (List.get?_mem hc)
    · rw [if_neg hp] at hc
      exact absurd hc (by simp)
  have h2 : insertTextAt (plainDoc pre ++ List.map (markedChar k) inner
        ++ plainDoc (getRevealSyntax k) ++ plainDoc post)
      (pre.length + 1) (getRevealSyntax k)
      = plainDoc pre ++ plainDoc (getRevealSyntax k)
          ++ (List.map (markedChar k) inner
            ++ (plainDoc (getRevealSyntax k) ++ plainDoc post)) := by
    have hre : plainDoc pre ++ List.map (markedChar k) inner
        ++ plainDoc (getRevealSyntax k) ++ plainDoc post
        = plainDoc pre ++ (List.map (markedChar k) inner
            ++ (plainDoc (getRevealSyntax k) ++ plainDoc post)) := by
      simp [List.append_assoc]
    have ha : pre.length + 1 = (plainDoc pre).length + 1 := by simp [plainDoc]
    rw [hre, ha, insertTextAt_boundary _ _ _ hm2]
  have h3 : removeMark (plainDoc pre ++ plainDoc (getRevealSyntax k)
        ++ (List.map (markedChar k) inner
          ++ (plainDoc (getRevealSyntax k) ++ plainDoc post)))
      (pre.length + 1) (pre.length + inner.length + 1) k.other
      = plainDoc pre ++ plainDoc (getRevealSyntax k)
          ++ (List.map (markedChar k) inner
            ++ (plainDoc (getRevealSyntax k) ++ plainDoc post)) := by
    apply removeMark_id_of_flags
    intro c hc
    simp only [List.mem_append] at hc
    rcases hc with ((h | h) | (h | (h | h)))
    · obtain ⟨hb, hi⟩ := mem_plainDoc c pre h
      exact hasKind_false_of_plain c k.other hb hi
    · obtain ⟨hb, hi⟩ := mem_plainDoc c (getRevealSyntax k) h
      exact hasKind_false_of_plain c k.other hb hi
    · exact mem_markedDoc_other c k inner h
    · obtain ⟨hb, hi⟩ := mem_plainDoc c (getRevealSyntax k) h
      exact hasKind_false_of_plain c k.other hb hi
    · obtain ⟨hb, hi⟩ := mem_plainDoc c post h
      exact hasKind_false_of_plain c k.other hb hi
  have h4 : removeMark (plainDoc pre ++ plainDoc (getRevealSyntax k)
        ++ (List.map (markedChar k) inner
          ++ (plainDoc (getRevealSyntax k) ++ plainDoc post)))
      (pre.length + 1) (pre.length + 1 + (getRevealSyntax k).length) k
      = plainDoc pre ++ plainDoc (getRevealSyntax k)
          ++ (List.map (markedChar k) inner
            ++ (plainDoc (getRevealSyntax k) ++ plainDoc post)) := by
    unfold removeMark
    have ha : pre.length + 1 = (plainDoc pre).length + 1 := by simp [plainDoc]
    have hab : pre.length + 1 + (getRevealSyntax k).length
        = (plainDoc pre).length + (plainDoc (getRevealSyntax k)).length + 1 := by
      simp [plainDoc]
      omega
    rw [hab, ha, mapRange_boundary, map_setKind_false_plain]
  have h5 : removeMark (plainDoc pre ++ plainDoc (getRevealSyntax k)
        ++ List.map (markedChar k) inner ++ plainDoc (getRevealSyntax k) ++ plainDoc post)
      (pre.length + inner.length + 1 + (getRevealSyntax k).length)
      (pre.length + inner.length + 1 + 2 * (getRevealSyntax k).length) k
      = plainDoc pre ++ plainDoc (getRevealSyntax k)
          ++ List.map (markedChar k) inner ++ plainDoc (getRevealSyntax k)
          ++ plainDoc post := by
    unfold removeMark
    have hP1 : pre.length + inner.length + 1 + (getRevealSyntax k).length
        = (plainDoc pre ++ plainDoc (getRevealSyntax k)
            ++ List.map (markedChar k) inner).length + 1 := by
      simp [plainDoc]
      omega
    have hP2 : pre.length + inner.length + 1 + 2 * (getRevealSyntax k).length
        = (plainDoc pre ++ plainDoc (getRevealSyntax k)
            ++ List.map (markedChar k) inner).length
          + (plainDoc (getRevealSyntax k)).length + 1 := by
      simp [plainDoc]
      omega
    rw [hP1, hP2, mapRange_boundary, map_setKind_false_plain]
  have hgr : plainDoc pre ++ plainDoc (getRevealSyntax k)
      ++ (List.map (markedChar k) inner
        ++ (plainDoc (getRevealSyntax k) ++ plainDoc post))
      = plainDoc pre ++ plainDoc (getRevealSyntax k)
          ++ List.map (markedChar k) inner ++ plainDoc (getRevealSyntax k)
          ++ plainDoc post := by
    simp [List.append_assoc]
  simp only [expandInlineRevealStep, singleMarkDoc, hidem, Bool.false_eq_true, if_false]
  rw [h1, h2, h3, h4, hgr, h5]
  exact ⟨rfl, trivial⟩

theorem charAtPos_front (pre : List Char) (R : Doc) :
    charAtPos (plainDoc pre ++ R) pre.length = pre.getLast? := by
  rcases pre with _ | ⟨p0, prest⟩
  · rfl
  · unfold charAtPos
    rw [if_neg (by simp)]
    rw [get?_append_lt _ _ _ (by simp [plainDoc])]
    rw [List.getLast?_eq_getElem?]
    simp only [plainDoc, List.get?_eq_getElem?, List.getElem?_map]
    cases hx : (p0 :: prest)[(p0 :: prest).length - 1]? <;> simp [hx]

theorem charAtPos_back (P : Doc) (post : List Char) :
    charAtPos (P ++ plainDoc post) (P.length + 1) = post.head? := by
  unfold charAtPos
  rw [if_neg (by omega), Nat.add_sub_cancel]
  have h := get?_append_pos P (plainDoc post) 0
  rw [Nat.add_zero] at h
  rw [h]
  rcases post with _ | ⟨c0, rest⟩ <;> simp [plainDoc]

/-- Collapsing the reveal state produced by `expand_content_single`
restores the single-mark document, provided the characters flanking the
span are not the marker. -/
theorem collapse_content_single (k : Kind) (pre inner post : List Char) (op : Nat)
    (hinner : 1 ≤ inner.length)
    (hpre : ∀ c, pre.getLast? = some c → c ≠ '*')
    (hpost : ∀ c, post.head? = some c → c ≠ '*') :
    (collapseInlineRevealStep
        (plainDoc pre ++ plainDoc (getRevealSyntax k) ++ List.map (markedChar k) inner
          ++ plainDoc (getRevealSyntax k) ++ plainDoc post)
        ⟨k, getRevealSyntax k, pre.length + 1,
          pre.length + inner.length + 1 + 2 * (getRevealSyntax k).length,
          some k, some (getRevealSyntax k).length, some (getRevealSyntax k).length⟩ op).1
      = singleMarkDoc k pre inner post := by
  have hmarker : (getRevealSyntax k).head? = some '*' := by cases k <;> rfl
  have hgrpL : plainDoc pre ++ plainDoc (getRevealSyntax k) ++ List.map (markedChar k) inner
      ++ plainDoc (getRevealSyntax k) ++ plainDoc post
      = plainDoc pre ++ (plainDoc (getRevealSyntax k) ++ (List.map (markedChar k) inner
        ++ (plainDoc (getRevealSyntax k) ++ plainDoc post))) := by
    simp [List.append_assoc]
  have hchL : charAtPos (plainDoc pre ++ plainDoc (getRevealSyntax k)
      ++ List.map (markedChar k) inner ++ plainDoc (getRevealSyntax k) ++ plainDoc post)
      (pre.length + 1 - 1) = pre.getLast? := by
    rw [Nat.add_sub_cancel, hgrpL, charAtPos_front]
  have hstopL : (decide (1 < pre.length + 1)
      && chEq (charAtPos (plainDoc pre ++ plainDoc (getRevealSyntax k)
          ++ List.map (markedChar k) inner ++ plainDoc (getRevealSyntax k) ++ plainDoc post)
        (pre.length + 1 - 1)) ((getRevealSyntax k).head?)) = false := by
    rw [hchL, hmarker]
    rcases hl : pre.getLast? with _ | c
    · simp [chEq]
    · have hc : c ≠ '*' := hpre c hl
      simp [chEq, hc]
  have hchR : charAtPos (plainDoc pre ++ plainDoc (getRevealSyntax k)
      ++ List.map (markedChar k) inner ++ plainDoc (getRevealSyntax k) ++ plainDoc post)
      (pre.length + inner.length + 1 + 2 * (getRevealSyntax k).length) = post.head? := by
    have hb2 : pre.length + inner.length + 1 + 2 * (getRevealSyntax k).length
        = (plainDoc pre ++ plainDoc (getRevealSyntax k) ++ List.map (markedChar k) inner
            ++ plainDoc (getRevealSyntax k)).length + 1 := by
      simp [plainDoc]
      omega
    rw [hb2]
    exact charAtPos_back _ post
  have hstopR : (decide (pre.length + inner.length + 1 + 2 * (getRevealSyntax k).length
        < contentSize (plainDoc pre ++ plainDoc (getRevealSyntax k)
          ++ List.map (markedChar k) inner ++ plainDoc (getRevealSyntax k) ++ plainDoc post))
      && chEq (charAtPos (plainDoc pre ++ plainDoc (getRevealSyntax k)
          ++ List.map (markedChar k) inner ++ plainDoc (getRevealSyntax k) ++ plainDoc post)
        (pre.length + inner.length + 1 + 2 * (getRevealSyntax k).length))
        ((getRevealSyntax k).head?)) = false := by
    rw [hchR, hmarker]
    rcases hh : post.head? with _ | c
    · simp [chEq]
    · have hc : c ≠ '*' := hpost c hh
      simp [chEq, hc]
  have hgrM : plainDoc pre ++ plainDoc (getRevealSyntax k) ++ List.map (markedChar k) inner
      ++ plainDoc (getRevealSyntax k) ++ plainDoc post
      = plainDoc pre ++ (plainDoc (getRevealSyntax k) ++ List.map (markedChar k) inner
          ++ plainDoc (getRevealSyntax k)) ++ plainDoc post := by
    simp [List.append_assoc]
  have hfix1 : pre.length + 1 = (plainDoc pre).length + 1 := by simp [plainDoc]
  have hfix2 : pre.length + inner.length + 1 + 2 * (getRevealSyntax k).length
      = (plainDoc pre).length + (plainDoc (getRevealSyntax k)
          ++ List.map (markedChar k) inner ++ plainDoc (getRevealSyntax k)).length + 1 := by
    simp [plainDoc]
    omega
  have hseg : textBetween (plainDoc pre ++ plainDoc (getRevealSyntax k)
      ++ List.map (markedChar k) inner ++ plainDoc (getRevealSyntax k) ++ plainDoc post)
      (pre.length + 1) (pre.length + inner.length + 1 + 2 * (getRevealSyntax k).length)
      = getRevealSyntax k ++ inner ++ getRevealSyntax k := by
    rw [hgrM, hfix1, hfix2, textBetween_boundary]
    have h1 : docText (plainDoc (getRevealSyntax k) ++ List.map (markedChar k) inner
        ++ plainDoc (getRevealSyntax k))
        = docText (plainDoc (getRevealSyntax k)) ++ docText (List.map (markedChar k) inner)
          ++ docText (plainDoc (getRevealSyntax k)) := by
      simp [docText]
    rw [h1, docText_plainDoc, docText_markedDoc]
  have hdel : deleteRange (plainDoc pre ++ plainDoc (getRevealSyntax k)
      ++ List.map (markedChar k) inner ++ plainDoc (getRevealSyntax k) ++ plainDoc post)
      (pre.length + 1) (pre.length + inner.length + 1 + 2 * (getRevealSyntax k).length)
      = plainDoc pre ++ plainDoc post := by
    rw [hgrM, hfix1, hfix2, deleteRange_boundary]
  have hm3 : marksAtPos (plainDoc pre ++ plainDoc post) ((plainDoc pre).length + 1)
      = (false, false) := by
    apply marksAtPos_false_next
    intro c hc
    unfold nextCharM at hc
    rw [if_pos (by omega)] at hc
    simp only [Nat.add_sub_cancel] at hc
    have hc2 : (plainDoc post).get? 0 = some c := by
      rw [← get?_append_pos (plainDoc pre) (plainDoc post) 0]
      exact hc
    exact mem_plainDoc c post (List.get?_mem hc2)
  have h6 : insertTextAt (plainDoc pre ++ plainDoc post) (pre.length + 1) inner
      = plainDoc pre ++ plainDoc inner ++ plainDoc post := by
    rw [hfix1, insertTextAt_boundary _ _ _ hm3]
  have h7 : removeMark (plainDoc pre ++ plainDoc inner ++ plainDoc post)
      (pre.length + 1) (pre.length + 1 + inner.length) k.other
      = plainDoc pre ++ plainDoc inner ++ plainDoc post := by
    apply removeMark_id_of_flags
    intro c hc
    simp only [List.mem_append] at hc
    rcases hc with (h | h) | h
    · obtain ⟨hb, hi⟩ := mem_plainDoc c pre h
      exact hasKind_false_of_plain c k.other hb hi
    · obtain ⟨hb, hi⟩ := mem_plainDoc c inner h
      exact hasKind_false_of_plain c k.other hb hi
    · obtain ⟨hb, hi⟩ := mem_plainDoc c post h
      exact hasKind_false_of_plain c k.other hb hi
  have h8 : addMark (plainDoc pre ++ plainDoc inner ++ plainDoc post)
      (pre.length + 1) (pre.length + 1 + inner.length) k
      = singleMarkDoc k pre inner post := by
    unfold addMark
    have hfix3 : pre.length + 1 + inner.length
        = (plainDoc pre).length + (plainDoc inner).length + 1 := by
      simp [plainDoc]
      omega
    rw [hfix3, hfix1, mapRange_boundary, map_plainDoc_setKind]
    unfold singleMarkDoc
    rfl
  have hpos : 0 < inner.length := hinner
  simp only [collapseInlineRevealStep]
  rw [absorbLeftGo_stop _ _ _ hstopL, absorbRightGo_stop _ _ _ hstopR, hseg,
    collapseParse_wrapped k inner hinner]
  simp only [hdel, hpos, if_true]
  rw [h6, h7, h8]

/-- C1 (amended): for every document containing a collapsed Bold or
Italic annotation whose flanking characters are not the marker `*`,
expanding the reveal and then collapsing it returns the document to a
state whose text and annotation set are byte-identical to the
original. -/
theorem c1_roundtrip_amended (k : Kind) (pre inner post : List Char) (oldPos : Nat)
    (hinner : 1 ≤ inner.length)
    (hpre : ∀ c, pre.getLast? = some c → c ≠ '*')
    (hpost : ∀ c, post.head? = some c → c ≠ '*') :
    revealRoundTrip (singleMarkDoc k pre inner post) oldPos k (pre.length + 1)
      (pre.length + inner.length + 1) = singleMarkDoc k pre inner post := by
  obtain ⟨hdoc, hrs⟩ := expand_content_single k pre inner post oldPos hpost
  simp only [revealRoundTrip]
  rw [hdoc, hrs]
  exact collapse_content_single k pre inner post _ hinner hpre hpost

/-- Witness for `c1_roundtrip_amended`: the round trip over Bold `hi`
inside `x<b>hi</b>y` restores the document exactly. -/
theorem c1_roundtrip_amended_witness :
    revealRoundTrip (singleMarkDoc .bold ['x'] ['h', 'i'] ['y']) 3 .bold 2 4
      = singleMarkDoc .bold ['x'] ['h', 'i'] ['y'] := by
  have h := c1_roundtrip_amended .bold ['x'] ['h', 'i'] ['y'] 3 (by decide)
    (by
      intro c hc
      simp at hc
      subst hc
      decide)
    (by
      intro c hc
      simp at hc
      subst hc
      decide)
  exact h
